import Mathlib

/-!
Verification of the distributed key-value store core.

A shallow embedding, in Lean 4, of the core data structures and algorithms of
the Dynamo-style key-value store (Go sources under `internal/` and the API
server / process wiring):

* the in-memory index of the Bitcask storage engine (`internal/storage/index.go`),
* the append-only log store itself (`internal/storage/bitcask.go`), both as an
  abstract record-level state machine (put / delete / get / compact) and at the
  byte level (record encoding, CRC-32 verification, startup recovery),
* the consistent-hash placement ring (`internal/ring/hash_ring.go`),
* the read/write coordinator, its quorum tables, and read repair
  (`internal/replication/coordinator.go`, `internal/replication/quorum.go`),
* the hinted-handoff buffer as wired by the process main (`internal/replication/handoff.go`).

Go byte strings are modeled as `List Nat` (each element one byte), Go `string`
keys and node ids as `String`, `int64` timestamps as `Int`, and `uint64` hashes
as `Nat`.  I/O that cannot fail in the model (buffered appends) is modeled as
total; fallible operations return `Except`/`Option`.
-/

set_option autoImplicit false

namespace KVStore

/-! ## The in-memory index (`internal/storage/index.go`)

The Go `Index` is a hash map `map[string]*IndexEntry` plus two counters
`stats.active` and `stats.deleted`.  A Go map with unique keys is modeled as an
association list with unique keys: updates replace the existing binding in
place, insertions append.  The index is generic in the key type because the
byte-level recovery model uses byte-string keys while the engine-level model
uses `String` keys, exactly as `string(key)` does in Go. -/

/-- Source: `storage.IndexEntry` — `{Offset int64, Size int32, Timestamp int64, IsDeleted bool}`. -/
structure IndexEntry where
  offset : Nat
  size : Nat
  timestamp : Int
  isDeleted : Bool
deriving Repr, DecidableEq

/-- First binding of a key in an association list (a Go map lookup). -/
def lookupEntry {κ : Type} [DecidableEq κ] : List (κ × IndexEntry) → κ → Option IndexEntry
  | [], _ => none
  | (k', e) :: rest, k => if k' = k then some e else lookupEntry rest k

/-- Replace the binding of `k` (a Go map store on a present key); the key is
assumed present, callers append themselves otherwise. -/
def setEntry {κ : Type} [DecidableEq κ] : List (κ × IndexEntry) → κ → IndexEntry → List (κ × IndexEntry)
  | [], _, _ => []
  | (k', e') :: rest, k, e => if k' = k then (k', e) :: rest else (k', e') :: setEntry rest k e

/-- Source: `storage.Index` — `entries map[string]*IndexEntry` with counters
`stats.active` and `stats.deleted`. -/
structure Index (κ : Type) [DecidableEq κ] where
  entries : List (κ × IndexEntry)
  active : Int
  deleted : Int
deriving Repr

variable {κ : Type} [DecidableEq κ]

instance : DecidableEq (Index κ) := fun a b =>
  decidable_of_iff (a.entries = b.entries ∧ a.active = b.active ∧ a.deleted = b.deleted)
    (by cases a; cases b; simp)

/-- Source: `NewIndex` — empty map, zero counters. -/
def Index.empty : Index κ := ⟨[], 0, 0⟩

/-- Source: `Index.Put`.  `exists && existing.IsDeleted` decrements `deleted`;
`!exists` increments `active`; then the entry is stored unconditionally with
`IsDeleted: false`. -/
def Index.put (idx : Index κ) (k : κ) (offset size : Nat) (timestamp : Int) : Index κ :=
  let newE : IndexEntry := ⟨offset, size, timestamp, false⟩
  match lookupEntry idx.entries k with
  | some e =>
      if e.isDeleted then
        { entries := setEntry idx.entries k newE, active := idx.active, deleted := idx.deleted - 1 }
      else
        { entries := setEntry idx.entries k newE, active := idx.active, deleted := idx.deleted }
  | none =>
      { entries := idx.entries ++ [(k, newE)], active := idx.active + 1, deleted := idx.deleted }

/-- Source: `Index.Delete`.  Missing key: a fresh tombstone entry (zero offset
and size) is created and `deleted` incremented.  Live entry: flipped to
tombstone with the new timestamp, `active` down, `deleted` up.  Already a
tombstone: no change. -/
def Index.del (idx : Index κ) (k : κ) (timestamp : Int) : Index κ :=
  match lookupEntry idx.entries k with
  | none =>
      { entries := idx.entries ++ [(k, ⟨0, 0, timestamp, true⟩)],
        active := idx.active, deleted := idx.deleted + 1 }
  | some e =>
      if e.isDeleted then idx
      else
        { entries := setEntry idx.entries k { e with isDeleted := true, timestamp := timestamp },
          active := idx.active - 1, deleted := idx.deleted + 1 }

/-- Source: `Index.Has` — present and not a tombstone. -/
def Index.has (idx : Index κ) (k : κ) : Bool :=
  match lookupEntry idx.entries k with
  | some e => !e.isDeleted
  | none => false

/-- Source: `Index.Keys` — all non-tombstone keys. -/
def Index.keys (idx : Index κ) : List κ :=
  (idx.entries.filter (fun p => !p.2.isDeleted)).map Prod.fst

/-- Source: `Index.Count` — returns the `active` counter. -/
def Index.count (idx : Index κ) : Int := idx.active

/-- Source: `Index.DeletedCount` — returns the `deleted` counter. -/
def Index.deletedCount (idx : Index κ) : Int := idx.deleted

/-- Source: `Index.Clear`. -/
def Index.clear (_idx : Index κ) : Index κ := Index.empty

/-! ## The log store at the record level (`internal/storage/bitcask.go`)

The data file is an append-only sequence of records; every write stores the
current end-of-file position in the index and `Get` seeks back to exactly that
position.  Offsets are used by the engine only as opaque addresses handed from
`writeEntry` to `readEntry`, so the byte offset is abstracted to the record's
ordinal in the file (the order-isomorphic addressing); the byte-exact format,
CRC and recovery parse are modeled separately below.  Buffered appends whose
I/O cannot fail in the model are total. -/

/-- A record as persisted in `data.db` (source: `storage.Entry` without the
location fields, which the file model supplies positionally). -/
structure FileRecord where
  key : String
  value : List Nat
  timestamp : Int
  isDeleted : Bool
deriving Repr, DecidableEq

/-- Source: the `storage.Bitcask` state — the single data file plus the
in-memory index.  (`position`, the buffered writer and the statistics counters
are not needed by any claim about this model.) -/
structure Bitcask where
  file : List FileRecord
  index : Index String
deriving Repr, DecidableEq

/-- Errors surfaced by `Bitcask.Get` (source: `storage/engine.go`). -/
inductive GetErr where
  | notFound      -- ErrKeyNotFound
  | deleted       -- ErrKeyDeleted
  | readFailed    -- a failed seek/read/CRC on the stored offset
deriving Repr, DecidableEq

instance {ε α : Type} [DecidableEq ε] [DecidableEq α] : DecidableEq (Except ε α)
  | .error a, .error b => decidable_of_iff (a = b) (by simp)
  | .error _, .ok _ => isFalse (fun hh => Except.noConfusion hh)
  | .ok _, .error _ => isFalse (fun hh => Except.noConfusion hh)
  | .ok a, .ok b => decidable_of_iff (a = b) (by simp)

/-- A fresh store over an empty data file (source: `NewBitcask` on an empty
directory — position 0, fresh index). -/
def Bitcask.new : Bitcask := ⟨[], Index.empty⟩

/-- Source: `Bitcask.Get`.  Index lookup; `ErrKeyNotFound` when absent,
`ErrKeyDeleted` on a tombstone, otherwise read the record back from the stored
offset and return its value and timestamp. -/
def Bitcask.get (bc : Bitcask) (k : String) : Except GetErr (List Nat × Int) :=
  match lookupEntry bc.index.entries k with
  | none => .error .notFound
  | some e =>
      if e.isDeleted then .error .deleted
      else
        match bc.file[e.offset]? with
        | none => .error .readFailed
        | some r => .ok (r.value, r.timestamp)

/-- Source: `Bitcask.Put`.  `writeEntry(key, value, ts, false)` appends at the
current end of file and returns that offset; the index entry is then stored
with `int32(len(value))` as size. -/
def Bitcask.put (bc : Bitcask) (k : String) (v : List Nat) (ts : Int) : Bitcask :=
  { file := bc.file ++ [⟨k, v, ts, false⟩],
    index := bc.index.put k bc.file.length v.length ts }

/-- Source: `Bitcask.Delete`.  Appends a tombstone record (`nil` value,
`isDeleted` flag) and marks the index entry deleted. -/
def Bitcask.del (bc : Bitcask) (k : String) (ts : Int) : Bitcask :=
  { file := bc.file ++ [⟨k, [], ts, true⟩],
    index := bc.index.del k ts }

/-- Source: `Bitcask.Has`. -/
def Bitcask.has (bc : Bitcask) (k : String) : Bool := bc.index.has k

/-- Source: `Bitcask.Keys`. -/
def Bitcask.keys (bc : Bitcask) : List String := bc.index.keys

/-- Source: the loop body of `Bitcask.Compact`: skip tombstones, re-read each
live record from the old file at its indexed offset (an unreadable offset
aborts compaction with an error), append it to the fresh file and register it
in the fresh index under the new offset with the re-read value and timestamp. -/
def compactGo (oldFile : List FileRecord) :
    List (String × IndexEntry) → List FileRecord → Index String →
    Except Unit (List FileRecord × Index String)
  | [], newFile, newIdx => .ok (newFile, newIdx)
  | (k, e) :: rest, newFile, newIdx =>
      if e.isDeleted then compactGo oldFile rest newFile newIdx
      else
        match oldFile[e.offset]? with
        | none => .error ()
        | some r =>
            compactGo oldFile rest (newFile ++ [⟨k, r.value, r.timestamp, false⟩])
              (newIdx.put k newFile.length r.value.length r.timestamp)

/-- Source: `Bitcask.Compact`.  Iterates `index.All()`, rewrites the live
records into a fresh file, atomically swaps it in and replaces the index with
the freshly built one. -/
def Bitcask.compact (bc : Bitcask) : Except Unit Bitcask :=
  match compactGo bc.file bc.index.entries [] Index.empty with
  | .error _ => .error ()
  | .ok (f, i) => .ok ⟨f, i⟩

/-! ### Operation sequences over the store -/

/-- A client operation against the local log store. -/
inductive Op where
  | put (k : String) (v : List Nat) (ts : Int)
  | del (k : String) (ts : Int)
deriving Repr, DecidableEq

def Op.key : Op → String
  | .put k _ _ => k
  | .del k _ => k

def Op.ts : Op → Int
  | .put _ _ ts => ts
  | .del _ ts => ts

def applyOp (bc : Bitcask) : Op → Bitcask
  | .put k v ts => bc.put k v ts
  | .del k ts => bc.del k ts

/-- The store state after a sequence of operations on a fresh engine. -/
def run (ops : List Op) : Bitcask := ops.foldl applyOp Bitcask.new

/-- The most recent operation touching key `k` (specification device for the
log round-trip property). -/
def lastOp (ops : List Op) (k : String) : Option Op :=
  (ops.filter (fun op => op.key = k)).getLast?

/-- Adjacent-pairs comparison used to state strictly increasing timestamps. -/
def strictIncr : List Int → Bool
  | [] => true
  | [_] => true
  | a :: b :: rest => a < b && strictIncr (b :: rest)

/-- The timestamps of an operation sequence are strictly increasing. -/
def StrictTs (ops : List Op) : Prop :=
  strictIncr (ops.map Op.ts) = true

instance (ops : List Op) : Decidable (StrictTs ops) :=
  inferInstanceAs (Decidable (_ = true))

/-! ### Association-list lemmas -/

theorem lookupEntry_append_some {l m : List (κ × IndexEntry)} {k : κ} {e : IndexEntry}
    (h : lookupEntry l k = some e) : lookupEntry (l ++ m) k = some e := by
  induction l with
  | nil => simp [lookupEntry] at h
  | cons p rest ih =>
      obtain ⟨k', e'⟩ := p
      by_cases hk : k' = k
      · simpa [lookupEntry, hk] using (by simpa [lookupEntry, hk] using h)
      · simp only [lookupEntry, if_neg hk, List.cons_append] at h ⊢
        exact ih h

theorem lookupEntry_append_none {l m : List (κ × IndexEntry)} {k : κ}
    (h : lookupEntry l k = none) : lookupEntry (l ++ m) k = lookupEntry m k := by
  induction l with
  | nil => simp
  | cons p rest ih =>
      obtain ⟨k', e'⟩ := p
      by_cases hk : k' = k
      · simp [lookupEntry, hk] at h
      · simp only [lookupEntry, if_neg hk, List.cons_append] at h ⊢
        exact ih h

theorem lookupEntry_setEntry_self {l : List (κ × IndexEntry)} {k : κ} {e₀ : IndexEntry}
    (h : lookupEntry l k = some e₀) (e : IndexEntry) :
    lookupEntry (setEntry l k e) k = some e := by
  induction l with
  | nil => simp [lookupEntry] at h
  | cons p rest ih =>
      obtain ⟨k', e'⟩ := p
      by_cases hk : k' = k
      · simp [setEntry, lookupEntry, hk]
      · simp only [lookupEntry, if_neg hk] at h
        simp only [setEntry, if_neg hk, lookupEntry, if_neg hk]
        exact ih h

theorem lookupEntry_setEntry_ne {l : List (κ × IndexEntry)} {k k' : κ} (e : IndexEntry)
    (h : k' ≠ k) : lookupEntry (setEntry l k e) k' = lookupEntry l k' := by
  induction l with
  | nil => simp [setEntry]
  | cons p rest ih =>
      obtain ⟨k₀, e₀⟩ := p
      by_cases hk : k₀ = k
      · subst hk
        have hne' : ¬ k₀ = k' := fun hh => h hh.symm
        simp only [setEntry, if_pos rfl, lookupEntry, if_neg hne']
      · simp only [setEntry, if_neg hk, lookupEntry]
        by_cases hk' : k₀ = k'
        · simp [hk']
        · simp only [if_neg hk']
          exact ih

theorem mapFst_setEntry (l : List (κ × IndexEntry)) (k : κ) (e : IndexEntry) :
    (setEntry l k e).map Prod.fst = l.map Prod.fst := by
  induction l with
  | nil => simp [setEntry]
  | cons p rest ih =>
      obtain ⟨k₀, e₀⟩ := p
      by_cases hk : k₀ = k
      · simp [setEntry, hk]
      · simp [setEntry, hk, ih]

/-! ### Index-operation lemmas -/

theorem lookupEntry_put_self (idx : Index κ) (k : κ) (off sz : Nat) (ts : Int) :
    lookupEntry (idx.put k off sz ts).entries k = some ⟨off, sz, ts, false⟩ := by
  unfold Index.put
  cases h : lookupEntry idx.entries k with
  | none =>
      simp only
      rw [lookupEntry_append_none h]
      simp [lookupEntry]
  | some e =>
      by_cases hd : e.isDeleted <;>
        simp [hd, lookupEntry_setEntry_self h]

theorem lookupEntry_put_ne (idx : Index κ) {k k' : κ} (off sz : Nat) (ts : Int)
    (hne : k' ≠ k) :
    lookupEntry (idx.put k off sz ts).entries k' = lookupEntry idx.entries k' := by
  unfold Index.put
  cases h : lookupEntry idx.entries k with
  | none =>
      simp only
      have hne' : ¬ k = k' := fun hh => hne hh.symm
      cases h' : lookupEntry idx.entries k' with
      | none =>
          rw [lookupEntry_append_none h']
          simp [lookupEntry, hne']
      | some e' => rw [lookupEntry_append_some h']
  | some e =>
      by_cases hd : e.isDeleted <;>
        simp [hd, lookupEntry_setEntry_ne _ hne]

theorem lookupEntry_del_self (idx : Index κ) (k : κ) (ts : Int) :
    ∃ e', lookupEntry (idx.del k ts).entries k = some e' ∧ e'.isDeleted = true := by
  unfold Index.del
  cases h : lookupEntry idx.entries k with
  | none =>
      refine ⟨⟨0, 0, ts, true⟩, ?_, rfl⟩
      simp only
      rw [lookupEntry_append_none h]
      simp [lookupEntry]
  | some e =>
      by_cases hd : e.isDeleted
      · exact ⟨e, by simpa [hd] using h, hd⟩
      · exact ⟨{ e with isDeleted := true, timestamp := ts },
          by simp [hd, lookupEntry_setEntry_self h], rfl⟩

theorem lookupEntry_del_ne (idx : Index κ) {k k' : κ} (ts : Int) (hne : k' ≠ k) :
    lookupEntry (idx.del k ts).entries k' = lookupEntry idx.entries k' := by
  unfold Index.del
  cases h : lookupEntry idx.entries k with
  | none =>
      simp only
      have hne' : ¬ k = k' := fun hh => hne hh.symm
      cases h' : lookupEntry idx.entries k' with
      | none =>
          rw [lookupEntry_append_none h']
          simp [lookupEntry, hne']
      | some e' => rw [lookupEntry_append_some h']
  | some e =>
      by_cases hd : e.isDeleted <;>
        simp [hd, lookupEntry_setEntry_ne _ hne]

/-! ### `Get` characterizations -/

theorem get_eq_notFound_iff (bc : Bitcask) (k : String) :
    bc.get k = .error .notFound ↔ lookupEntry bc.index.entries k = none := by
  unfold Bitcask.get
  cases h : lookupEntry bc.index.entries k with
  | none => simp
  | some e =>
      by_cases hd : e.isDeleted
      · simp [hd]
      · cases hr : bc.file[e.offset]? <;> simp [hd, hr]

theorem get_eq_deleted_iff (bc : Bitcask) (k : String) :
    bc.get k = .error .deleted ↔
      ∃ e, lookupEntry bc.index.entries k = some e ∧ e.isDeleted = true := by
  unfold Bitcask.get
  cases h : lookupEntry bc.index.entries k with
  | none => simp
  | some e =>
      by_cases hd : e.isDeleted
      · simp [hd]
      · cases hr : bc.file[e.offset]? <;> simp [hd, hr]

theorem get_eq_ok_iff (bc : Bitcask) (k : String) (v : List Nat) (ts : Int) :
    bc.get k = .ok (v, ts) ↔
      ∃ e r, lookupEntry bc.index.entries k = some e ∧ e.isDeleted = false ∧
        bc.file[e.offset]? = some r ∧ r.value = v ∧ r.timestamp = ts := by
  unfold Bitcask.get
  cases h : lookupEntry bc.index.entries k with
  | none => simp
  | some e =>
      by_cases hd : e.isDeleted
      · simp [hd]
      · cases hr : bc.file[e.offset]? with
        | none => simp [hd, hr]
        | some r =>
            simp only [if_neg hd, hr]
            constructor
            · intro h'
              have hvt : r.value = v ∧ r.timestamp = ts := by
                simpa using h'
              exact ⟨e, r, rfl, by simpa using hd, hr, hvt.1, hvt.2⟩
            · rintro ⟨e', r', he', _, hr', hv, hts⟩
              obtain rfl : e = e' := by simpa using he'
              rw [hr] at hr'
              obtain rfl : r = r' := by simpa using hr'
              simp [hv, hts]

/-! ### Well-formedness of reachable store states -/

theorem lookupEntry_eq_none_iff (l : List (κ × IndexEntry)) (k : κ) :
    lookupEntry l k = none ↔ k ∉ l.map Prod.fst := by
  induction l with
  | nil => simp [lookupEntry]
  | cons p rest ih =>
      obtain ⟨k₀, e₀⟩ := p
      by_cases hk : k₀ = k
      · simp [lookupEntry, hk]
      · simp only [lookupEntry, if_neg hk, List.map_cons, List.mem_cons, not_or, ih]
        constructor
        · intro h2
          exact ⟨fun hh => hk hh.symm, h2⟩
        · intro h2
          exact h2.2

/-- The invariant every reachable engine state satisfies: unique index keys,
and every live index entry points inside the data file. -/
def Wf (bc : Bitcask) : Prop :=
  (bc.index.entries.map Prod.fst).Nodup ∧
  ∀ k e, lookupEntry bc.index.entries k = some e → e.isDeleted = false →
    e.offset < bc.file.length

theorem wf_new : Wf Bitcask.new := by
  constructor
  · simp [Bitcask.new, Index.empty]
  · intro k e h
    simp [Bitcask.new, Index.empty, lookupEntry] at h

theorem wf_put (bc : Bitcask) (k : String) (v : List Nat) (ts : Int) (hwf : Wf bc) :
    Wf (bc.put k v ts) := by
  obtain ⟨hnd, hoff⟩ := hwf
  constructor
  · show ((bc.index.put k bc.file.length v.length ts).entries.map Prod.fst).Nodup
    unfold Index.put
    cases h : lookupEntry bc.index.entries k with
    | none =>
        have hk : k ∉ bc.index.entries.map Prod.fst := (lookupEntry_eq_none_iff _ _).mp h
        simp only [List.map_append, List.map_cons, List.map_nil]
        rw [List.nodup_append]
        refine ⟨hnd, by simp, ?_⟩
        intro a ha hb
        simp only [List.mem_singleton] at hb
        subst hb
        exact hk ha
    | some e => by_cases hd : e.isDeleted <;> simp [hd, mapFst_setEntry, hnd]
  · intro k' e' hl hdel
    rw [show (bc.put k v ts).index = bc.index.put k bc.file.length v.length ts from rfl] at hl
    show e'.offset < (bc.file ++ [(⟨k, v, ts, false⟩ : FileRecord)]).length
    by_cases hk : k' = k
    · subst hk
      rw [lookupEntry_put_self] at hl
      obtain rfl : (⟨bc.file.length, v.length, ts, false⟩ : IndexEntry) = e' := by
        simpa using hl
      simp
    · rw [lookupEntry_put_ne _ _ _ _ hk] at hl
      have := hoff k' e' hl hdel
      simp only [List.length_append, List.length_cons, List.length_nil]
      omega

theorem wf_del (bc : Bitcask) (k : String) (ts : Int) (hwf : Wf bc) :
    Wf (bc.del k ts) := by
  obtain ⟨hnd, hoff⟩ := hwf
  constructor
  · show ((bc.index.del k ts).entries.map Prod.fst).Nodup
    unfold Index.del
    cases h : lookupEntry bc.index.entries k with
    | none =>
        have hk : k ∉ bc.index.entries.map Prod.fst := (lookupEntry_eq_none_iff _ _).mp h
        simp only [List.map_append, List.map_cons, List.map_nil]
        rw [List.nodup_append]
        refine ⟨hnd, by simp, ?_⟩
        intro a ha hb
        simp only [List.mem_singleton] at hb
        subst hb
        exact hk ha
    | some e => by_cases hd : e.isDeleted <;> simp [hd, mapFst_setEntry, hnd]
  · intro k' e' hl hdel
    rw [show (bc.del k ts).index = bc.index.del k ts from rfl] at hl
    show e'.offset < (bc.file ++ [(⟨k, [], ts, true⟩ : FileRecord)]).length
    by_cases hk : k' = k
    · subst hk
      obtain ⟨e'', he'', hd''⟩ := lookupEntry_del_self bc.index k' ts
      rw [hl] at he''
      obtain rfl : e' = e'' := by simpa using he''
      rw [hd''] at hdel
      cases hdel
    · rw [lookupEntry_del_ne _ _ hk] at hl
      have := hoff k' e' hl hdel
      simp only [List.length_append, List.length_cons, List.length_nil]
      omega

theorem wf_applyOp (bc : Bitcask) (op : Op) (hwf : Wf bc) : Wf (applyOp bc op) := by
  cases op with
  | put k v ts => exact wf_put bc k v ts hwf
  | del k ts => exact wf_del bc k ts hwf

theorem wf_run (ops : List Op) : Wf (run ops) := by
  have main : ∀ (l : List Op) (bc : Bitcask), Wf bc → Wf (l.foldl applyOp bc) := by
    intro l
    induction l with
    | nil => intro bc h; exact h
    | cons op rest ih => intro bc h; exact ih _ (wf_applyOp bc op h)
  exact main ops Bitcask.new wf_new

/-! ### Single-step `get` behavior -/

theorem get_put_self (bc : Bitcask) (k : String) (v : List Nat) (ts : Int) :
    (bc.put k v ts).get k = .ok (v, ts) := by
  rw [get_eq_ok_iff]
  refine ⟨⟨bc.file.length, v.length, ts, false⟩, ⟨k, v, ts, false⟩,
    lookupEntry_put_self bc.index k bc.file.length v.length ts, rfl, ?_, rfl, rfl⟩
  show (bc.file ++ [⟨k, v, ts, false⟩])[bc.file.length]? = some ⟨k, v, ts, false⟩
  exact List.getElem?_concat_length _ _

theorem get_del_self (bc : Bitcask) (k : String) (ts : Int) :
    (bc.del k ts).get k = .error .deleted := by
  rw [get_eq_deleted_iff]
  exact lookupEntry_del_self bc.index k ts

theorem get_put_ne (bc : Bitcask) {k k' : String} (v : List Nat) (ts : Int)
    (hwf : Wf bc) (hne : k' ≠ k) : (bc.put k v ts).get k' = bc.get k' := by
  have hidx : (bc.put k v ts).index = bc.index.put k bc.file.length v.length ts := rfl
  have hfile : (bc.put k v ts).file = bc.file ++ [⟨k, v, ts, false⟩] := rfl
  cases hl : lookupEntry bc.index.entries k' with
  | none =>
      rw [(get_eq_notFound_iff bc k').mpr hl]
      rw [get_eq_notFound_iff, hidx, lookupEntry_put_ne _ _ _ _ hne]
      exact hl
  | some e =>
      by_cases hd : e.isDeleted
      · rw [(get_eq_deleted_iff bc k').mpr ⟨e, hl, hd⟩]
        rw [get_eq_deleted_iff]
        refine ⟨e, ?_, hd⟩
        rw [hidx, lookupEntry_put_ne _ _ _ _ hne]
        exact hl
      · have hd' : e.isDeleted = false := by simpa using hd
        have hoff := hwf.2 k' e hl hd'
        obtain ⟨r, hr⟩ : ∃ r, bc.file[e.offset]? = some r :=
          ⟨bc.file[e.offset], List.getElem?_eq_getElem hoff⟩
        rw [(get_eq_ok_iff bc k' r.value r.timestamp).mpr ⟨e, r, hl, hd', hr, rfl, rfl⟩]
        rw [get_eq_ok_iff]
        refine ⟨e, r, ?_, hd', ?_, rfl, rfl⟩
        · rw [hidx, lookupEntry_put_ne _ _ _ _ hne]
          exact hl
        · rw [hfile, List.getElem?_append_left hoff]
          exact hr

theorem get_del_ne (bc : Bitcask) {k k' : String} (ts : Int)
    (hwf : Wf bc) (hne : k' ≠ k) : (bc.del k ts).get k' = bc.get k' := by
  have hidx : (bc.del k ts).index = bc.index.del k ts := rfl
  have hfile : (bc.del k ts).file = bc.file ++ [⟨k, [], ts, true⟩] := rfl
  cases hl : lookupEntry bc.index.entries k' with
  | none =>
      rw [(get_eq_notFound_iff bc k').mpr hl]
      rw [get_eq_notFound_iff, hidx, lookupEntry_del_ne _ _ hne]
      exact hl
  | some e =>
      by_cases hd : e.isDeleted
      · rw [(get_eq_deleted_iff bc k').mpr ⟨e, hl, hd⟩]
        rw [get_eq_deleted_iff]
        refine ⟨e, ?_, hd⟩
        rw [hidx, lookupEntry_del_ne _ _ hne]
        exact hl
      · have hd' : e.isDeleted = false := by simpa using hd
        have hoff := hwf.2 k' e hl hd'
        obtain ⟨r, hr⟩ : ∃ r, bc.file[e.offset]? = some r :=
          ⟨bc.file[e.offset], List.getElem?_eq_getElem hoff⟩
        rw [(get_eq_ok_iff bc k' r.value r.timestamp).mpr ⟨e, r, hl, hd', hr, rfl, rfl⟩]
        rw [get_eq_ok_iff]
        refine ⟨e, r, ?_, hd', ?_, rfl, rfl⟩
        · rw [hidx, lookupEntry_del_ne _ _ hne]
          exact hl
        · rw [hfile, List.getElem?_append_left hoff]
          exact hr

/-! ### The log round-trip property -/

/-- What a fresh `get` must return given the most recent operation on the key. -/
def GetSpec (bc : Bitcask) (k : String) : Option Op → Prop
  | none => bc.get k = .error .notFound
  | some (.put _ v ts) => bc.get k = .ok (v, ts)
  | some (.del _ _) => bc.get k = .error .deleted

theorem lastOp_concat (ops : List Op) (op : Op) (k : String) :
    lastOp (ops ++ [op]) k = if op.key = k then some op else lastOp ops k := by
  unfold lastOp
  rw [List.filter_append]
  by_cases h : op.key = k
  · simp [h, List.getLast?_concat]
  · simp [h]

theorem run_concat (ops : List Op) (op : Op) :
    run (ops ++ [op]) = applyOp (run ops) op := by
  simp [run, List.foldl_append]

theorem run_getSpec (ops : List Op) (k : String) :
    GetSpec (run ops) k (lastOp ops k) := by
  induction ops using List.reverseRecOn with
  | nil =>
      show GetSpec (run []) k (lastOp [] k)
      simp only [lastOp, List.filter_nil, List.getLast?_nil]
      show (run []).get k = .error .notFound
      rw [get_eq_notFound_iff]
      rfl
  | append_singleton ops op ih =>
      rw [lastOp_concat, run_concat]
      by_cases hk : op.key = k
      · rw [if_pos hk]
        cases op with
        | put k₀ v ts =>
            have hkk : k₀ = k := hk
            subst hkk
            show (applyOp (run ops) (Op.put k₀ v ts)).get k₀ = .ok (v, ts)
            exact get_put_self (run ops) k₀ v ts
        | del k₀ ts =>
            have hkk : k₀ = k := hk
            subst hkk
            show (applyOp (run ops) (Op.del k₀ ts)).get k₀ = .error .deleted
            exact get_del_self (run ops) k₀ ts
      · rw [if_neg hk]
        have hwf := wf_run ops
        have hpres : (applyOp (run ops) op).get k = (run ops).get k := by
          cases op with
          | put k₀ v ts => exact get_put_ne (run ops) v ts hwf (fun hh => hk hh.symm)
          | del k₀ ts => exact get_del_ne (run ops) ts hwf (fun hh => hk hh.symm)
        cases hl : lastOp ops k with
        | none =>
            have := ih
            rw [hl] at this
            show (applyOp (run ops) op).get k = .error .notFound
            rw [hpres]
            exact this
        | some op' =>
            have := ih
            rw [hl] at this
            cases op' with
            | put k₀ v ts =>
                show (applyOp (run ops) op).get k = .ok (v, ts)
                rw [hpres]; exact this
            | del k₀ ts =>
                show (applyOp (run ops) op).get k = .error .deleted
                rw [hpres]; exact this

/-- C6: for every sequence of `put(k, v, ts)` and `delete(k, ts)` operations on
the local log store with strictly increasing timestamps, a subsequent `get(k)`
for each key `k` returns the value and timestamp of the most recent operation
on `k`, the `Tombstoned` error after a delete of `k`, or the `NotFound` error
for a key never written. -/
theorem C6_log_round_trip (ops : List Op) (_hts : StrictTs ops) (k : String) :
    GetSpec (run ops) k (lastOp ops k) :=
  run_getSpec ops k

theorem C6_log_round_trip_witness :
    StrictTs [Op.put "a" [1] 1, Op.put "b" [2] 2, Op.del "a" 3] ∧
    GetSpec (run [Op.put "a" [1] 1, Op.put "b" [2] 2, Op.del "a" 3]) "a"
      (lastOp [Op.put "a" [1] 1, Op.put "b" [2] 2, Op.del "a" 3] "a") :=
  ⟨by decide, C6_log_round_trip [Op.put "a" [1] 1, Op.put "b" [2] 2, Op.del "a" 3]
    (by decide) "a"⟩

/-! ### The index counter bug (C10)

`Index.Put` on a key whose current entry is a tombstone decrements the
`deleted` counter but never increments `active`, although the stored entry
becomes live.  After `Put k / Delete k / Put k` the map holds one live entry
while `Count()` reports 0 — contradicting the documented meaning of `Count`
("the number of active keys"). -/

/-- The put–delete–put ("resurrect") sequence on a fresh index. -/
def resurrectIdx : Index String :=
  ((Index.empty.put "k" 0 1 1).del "k" 2).put "k" 1 1 3

/-- C10: evaluating `Index.Put / Delete / Put` at the failing input: after
resurrecting a deleted key, the index holds exactly one entry whose
`IsDeleted` field is false, yet `Count` (the `active` counter) reports 0, so
the `active` counter does not equal the number of live entries. -/
theorem C10_counter_bug :
    (resurrectIdx.entries.filter (fun p => !p.2.isDeleted)).length = 1 ∧
    resurrectIdx.count = 0 ∧
    resurrectIdx.deletedCount = 0 := by
  decide

/-! ### Compaction (C7) -/

theorem lookupEntry_mem {l : List (κ × IndexEntry)} {k : κ} {e : IndexEntry}
    (h : lookupEntry l k = some e) : (k, e) ∈ l := by
  induction l with
  | nil => simp [lookupEntry] at h
  | cons q rest ih =>
      obtain ⟨k₀, e₀⟩ := q
      by_cases hk : k₀ = k
      · rw [lookupEntry, if_pos hk] at h
        obtain rfl := Option.some.inj h
        subst hk
        exact List.mem_cons_self _ _
      · rw [lookupEntry, if_neg hk] at h
        exact List.mem_cons_of_mem _ (ih h)

theorem lookupEntry_of_mem_nodup {l : List (κ × IndexEntry)}
    (hnd : (l.map Prod.fst).Nodup) {k : κ} {e : IndexEntry}
    (hmem : (k, e) ∈ l) : lookupEntry l k = some e := by
  induction l with
  | nil => simp at hmem
  | cons q rest ih =>
      obtain ⟨k₀, e₀⟩ := q
      simp only [List.map_cons, List.nodup_cons] at hnd
      rcases List.mem_cons.mp hmem with h | h
      · rw [Prod.mk.injEq] at h
        obtain ⟨rfl, rfl⟩ := h
        simp [lookupEntry]
      · have hk : ¬ k₀ = k := by
          intro hh
          subst hh
          exact hnd.1 (List.mem_map.mpr ⟨(k₀, e), h, rfl⟩)
        rw [lookupEntry, if_neg hk]
        exact ih hnd.2 h

theorem mem_setEntry {l : List (κ × IndexEntry)} {k : κ} {e : IndexEntry}
    {p : κ × IndexEntry} (hp : p ∈ setEntry l k e) : p ∈ l ∨ p = (k, e) := by
  induction l with
  | nil => simp [setEntry] at hp
  | cons q rest ih =>
      obtain ⟨k₀, e₀⟩ := q
      by_cases hk : k₀ = k
      · simp only [setEntry, if_pos hk] at hp
        rcases List.mem_cons.mp hp with h | h
        · right; rw [h, hk]
        · left; exact List.mem_cons_of_mem _ h
      · simp only [setEntry, if_neg hk] at hp
        rcases List.mem_cons.mp hp with h | h
        · left; rw [h]; exact List.mem_cons_self _ _
        · rcases ih h with h' | h'
          · left; exact List.mem_cons_of_mem _ h'
          · right; exact h'

theorem mem_put_entries {idx : Index κ} {k : κ} {o s : Nat} {t : Int}
    {p : κ × IndexEntry} (hp : p ∈ (idx.put k o s t).entries) :
    p ∈ idx.entries ∨ p = (k, ⟨o, s, t, false⟩) := by
  unfold Index.put at hp
  cases h : lookupEntry idx.entries k with
  | none =>
      rw [h] at hp
      simp only at hp
      rcases List.mem_append.mp hp with h' | h'
      · left; exact h'
      · right; simpa using h'
  | some e =>
      rw [h] at hp
      by_cases hd : e.isDeleted
      · simp only [hd, if_true] at hp
        exact mem_setEntry hp
      · simp only [hd, if_false, Bool.false_eq_true] at hp
        exact mem_setEntry hp

theorem mem_keys_iff {idx : Index κ} (hnd : (idx.entries.map Prod.fst).Nodup) (k : κ) :
    k ∈ idx.keys ↔ ∃ e, lookupEntry idx.entries k = some e ∧ e.isDeleted = false := by
  unfold Index.keys
  constructor
  · intro h
    obtain ⟨⟨k', e⟩, hmem, hfst⟩ := List.mem_map.mp h
    obtain rfl : k' = k := hfst
    have hm2 := List.mem_filter.mp hmem
    exact ⟨e, lookupEntry_of_mem_nodup hnd hm2.1, by simpa using hm2.2⟩
  · rintro ⟨e, hl, hd⟩
    exact List.mem_map.mpr ⟨(k, e),
      List.mem_filter.mpr ⟨lookupEntry_mem hl, by simp [hd]⟩, rfl⟩

theorem mem_keys_of_all_live {idx : Index κ}
    (hall : ∀ p ∈ idx.entries, p.2.isDeleted = false) (k : κ) :
    k ∈ idx.keys ↔ k ∈ idx.entries.map Prod.fst := by
  unfold Index.keys
  rw [List.filter_eq_self.mpr (fun p hp => by simp [hall p hp])]

/-- Correctness of the compaction loop, generalized over the accumulated
fresh file and index. -/
theorem compactGo_ok (F : List FileRecord) :
    ∀ (post : List (String × IndexEntry)) (accF : List FileRecord) (accI : Index String),
    (post.map Prod.fst).Nodup →
    (∀ p ∈ post, p.2.isDeleted = false → p.2.offset < F.length) →
    (∀ r ∈ accF, r.isDeleted = false) →
    (∀ p ∈ accI.entries, p.2.isDeleted = false) →
    ∃ G J, compactGo F post accF accI = .ok (G, J) ∧
      (∀ i, i < accF.length → G[i]? = accF[i]?) ∧
      accF.length ≤ G.length ∧
      (∀ r ∈ G, r.isDeleted = false) ∧
      (∀ p ∈ J.entries, p.2.isDeleted = false) ∧
      (∀ k, k ∉ post.map Prod.fst → lookupEntry J.entries k = lookupEntry accI.entries k) ∧
      (∀ k e, lookupEntry post k = some e →
        (e.isDeleted = true → lookupEntry J.entries k = lookupEntry accI.entries k) ∧
        (e.isDeleted = false → ∀ r, F[e.offset]? = some r →
          ∃ e', lookupEntry J.entries k = some e' ∧ e'.isDeleted = false ∧
            G[e'.offset]? = some ⟨k, r.value, r.timestamp, false⟩)) := by
  intro post
  induction post with
  | nil =>
      intro accF accI _ _ haccF haccI
      refine ⟨accF, accI, rfl, fun i _ => rfl, le_refl _, haccF, haccI,
        fun k _ => rfl, ?_⟩
      intro k e hl
      simp [lookupEntry] at hl
  | cons p rest ih =>
      intro accF accI hnd hwf haccF haccI
      obtain ⟨k, e⟩ := p
      simp only [List.map_cons, List.nodup_cons] at hnd
      by_cases hd : e.isDeleted
      · -- tombstone: skipped entirely
        have step : compactGo F ((k, e) :: rest) accF accI = compactGo F rest accF accI := by
          simp [compactGo, hd]
        obtain ⟨G, J, hrun, hpre, hlen, hG, hJ, hout, hin⟩ :=
          ih accF accI hnd.2 (fun p hp hl => hwf p (List.mem_cons_of_mem _ hp) hl) haccF haccI
        refine ⟨G, J, by rw [step]; exact hrun, hpre, hlen, hG, hJ, ?_, ?_⟩
        · intro k'' hk''
          exact hout k'' (fun h => hk'' (List.mem_cons_of_mem _ h))
        · intro k'' e'' hl''
          by_cases hkk : k = k''
          · subst hkk
            rw [lookupEntry, if_pos rfl] at hl''
            obtain rfl := Option.some.inj hl''
            refine ⟨fun _ => hout k hnd.1, fun hlive => ?_⟩
            rw [hd] at hlive
            cases hlive
          · rw [lookupEntry, if_neg hkk] at hl''
            exact hin k'' e'' hl''
      · -- live entry: re-read and re-append
        have hd' : e.isDeleted = false := by simpa using hd
        have hofs : e.offset < F.length := hwf (k, e) (List.mem_cons_self _ _) hd'
        obtain ⟨r, hr⟩ : ∃ r, F[e.offset]? = some r :=
          ⟨F[e.offset], List.getElem?_eq_getElem hofs⟩
        have step : compactGo F ((k, e) :: rest) accF accI =
            compactGo F rest (accF ++ [⟨k, r.value, r.timestamp, false⟩])
              (accI.put k accF.length r.value.length r.timestamp) := by
          simp [compactGo, hd, hr]
        have haccF' : ∀ r' ∈ accF ++ [(⟨k, r.value, r.timestamp, false⟩ : FileRecord)],
            r'.isDeleted = false := by
          intro r' hr'
          rcases List.mem_append.mp hr' with h | h
          · exact haccF r' h
          · simp only [List.mem_singleton] at h
            rw [h]
        have haccI' : ∀ p ∈ (accI.put k accF.length r.value.length r.timestamp).entries,
            p.2.isDeleted = false := by
          intro p hp
          rcases mem_put_entries hp with h | h
          · exact haccI p h
          · rw [h]
        obtain ⟨G, J, hrun, hpre, hlen, hG, hJ, hout, hin⟩ :=
          ih (accF ++ [⟨k, r.value, r.timestamp, false⟩])
            (accI.put k accF.length r.value.length r.timestamp)
            hnd.2 (fun p hp hl => hwf p (List.mem_cons_of_mem _ hp) hl) haccF' haccI'
        refine ⟨G, J, by rw [step]; exact hrun, ?_, ?_, hG, hJ, ?_, ?_⟩
        · intro i hi
          rw [hpre i (by simp only [List.length_append, List.length_cons,
              List.length_nil]; omega)]
          exact List.getElem?_append_left hi
        · calc accF.length ≤ (accF ++ [(⟨k, r.value, r.timestamp, false⟩ : FileRecord)]).length := by
                simp
            _ ≤ G.length := hlen
        · intro k'' hk''
          have h1 : k'' ∉ rest.map Prod.fst := fun h => hk'' (List.mem_cons_of_mem _ h)
          have h2 : ¬ k'' = k := fun h => hk'' (by rw [h]; exact List.mem_cons_self _ _)
          rw [hout k'' h1]
          exact lookupEntry_put_ne accI _ _ _ h2
        · intro k'' e'' hl''
          by_cases hkk : k = k''
          · subst hkk
            rw [lookupEntry, if_pos rfl] at hl''
            obtain rfl := Option.some.inj hl''
            refine ⟨fun hdd => ?_, fun _ r' hr' => ?_⟩
            · rw [hdd] at hd'; cases hd'
            · rw [hr] at hr'
              obtain rfl : r = r' := Option.some.inj hr'
              refine ⟨⟨accF.length, r.value.length, r.timestamp, false⟩, ?_, rfl, ?_⟩
              · rw [hout k hnd.1]
                exact lookupEntry_put_self accI k accF.length r.value.length r.timestamp
              · rw [hpre accF.length (by simp)]
                exact List.getElem?_concat_length _ _
          · rw [lookupEntry, if_neg hkk] at hl''
            have hrec := hin k'' e'' hl''
            refine ⟨fun hdd => ?_, hrec.2⟩
            rw [hrec.1 hdd]
            exact lookupEntry_put_ne accI _ _ _ (fun hh => hkk hh.symm)

/-- C7: compaction preserves observable semantics on every reachable store
state: `compact` succeeds, `get` on every non-tombstoned key returns the same
value and timestamp as before, no tombstoned key remains observable through
`get`, `has` or `keys` (a tombstoned key's `get` becomes `NotFound`), and the
rewritten file and new index hold no tombstones. -/
theorem C7_compaction_preserves (ops : List Op) (k : String) :
    ∃ bc', (run ops).compact = .ok bc' ∧
      bc'.get k = (match (run ops).get k with
                   | .error .deleted => .error .notFound
                   | x => x) ∧
      bc'.has k = (run ops).has k ∧
      (k ∈ bc'.keys ↔ k ∈ (run ops).keys) ∧
      (∀ r ∈ bc'.file, r.isDeleted = false) ∧
      (∀ p ∈ bc'.index.entries, p.2.isDeleted = false) := by
  obtain ⟨hnd, hoff⟩ := wf_run ops
  have hwfpost : ∀ p ∈ (run ops).index.entries,
      p.2.isDeleted = false → p.2.offset < (run ops).file.length := by
    intro p hp hl
    exact hoff p.1 p.2 (lookupEntry_of_mem_nodup hnd (by rwa [show (p.1, p.2) = p from rfl])) hl
  obtain ⟨G, J, hrun, hpre, hlen, hG, hJ, hout, hin⟩ :=
    compactGo_ok (run ops).file (run ops).index.entries [] Index.empty hnd hwfpost
      (by simp) (by simp [Index.empty])
  have hcomp : (run ops).compact = .ok ⟨G, J⟩ := by
    unfold Bitcask.compact
    rw [hrun]
  have hkeysJ : k ∈ Bitcask.keys ⟨G, J⟩ ↔ k ∈ J.entries.map Prod.fst :=
    mem_keys_of_all_live hJ k
  have key : Bitcask.get ⟨G, J⟩ k = (match (run ops).get k with
      | .error .deleted => .error .notFound
      | x => x) ∧
      Bitcask.has ⟨G, J⟩ k = (run ops).has k ∧
      (k ∈ Bitcask.keys ⟨G, J⟩ ↔ k ∈ (run ops).keys) := by
    cases hl : lookupEntry (run ops).index.entries k with
    | none =>
        have hjl : lookupEntry J.entries k = none := by
          rw [hout k ((lookupEntry_eq_none_iff _ _).mp hl)]
          rfl
        have hget : (run ops).get k = .error .notFound := (get_eq_notFound_iff _ _).mpr hl
        have hget' : Bitcask.get ⟨G, J⟩ k = .error .notFound :=
          (get_eq_notFound_iff _ _).mpr hjl
        refine ⟨by rw [hget, hget'], ?_, ?_⟩
        · show Index.has J k = Index.has (run ops).index k
          unfold Index.has
          rw [hjl, hl]
        · constructor
          · intro h
            exact absurd (hkeysJ.mp h) ((lookupEntry_eq_none_iff _ _).mp hjl)
          · intro h
            obtain ⟨e, he, _⟩ := (mem_keys_iff hnd k).mp h
            rw [hl] at he
            cases he
    | some e =>
        by_cases hd : e.isDeleted
        · -- tombstoned key: dropped by compaction
          have hjl : lookupEntry J.entries k = none := by
            rw [(hin k e hl).1 hd]
            rfl
          have hget : (run ops).get k = .error .deleted :=
            (get_eq_deleted_iff _ _).mpr ⟨e, hl, hd⟩
          have hget' : Bitcask.get ⟨G, J⟩ k = .error .notFound :=
            (get_eq_notFound_iff _ _).mpr hjl
          refine ⟨by rw [hget, hget'], ?_, ?_⟩
          · show Index.has J k = Index.has (run ops).index k
            unfold Index.has
            rw [hjl, hl]
            simp [hd]
          · constructor
            · intro h
              exact absurd (hkeysJ.mp h) ((lookupEntry_eq_none_iff _ _).mp hjl)
            · intro h
              obtain ⟨e₂, he₂, hd₂⟩ := (mem_keys_iff hnd k).mp h
              rw [hl] at he₂
              obtain rfl := Option.some.inj he₂
              rw [hd] at hd₂
              cases hd₂
        · -- live key: value and timestamp preserved
          have hd' : e.isDeleted = false := by simpa using hd
          have hofs : e.offset < (run ops).file.length := hoff k e hl hd'
          obtain ⟨r, hr⟩ : ∃ r, (run ops).file[e.offset]? = some r :=
            ⟨(run ops).file[e.offset], List.getElem?_eq_getElem hofs⟩
          obtain ⟨e', hJl, hlive', hGr⟩ := (hin k e hl).2 hd' r hr
          have hget : (run ops).get k = .ok (r.value, r.timestamp) :=
            (get_eq_ok_iff _ _ _ _).mpr ⟨e, r, hl, hd', hr, rfl, rfl⟩
          have hget' : Bitcask.get ⟨G, J⟩ k = .ok (r.value, r.timestamp) :=
            (get_eq_ok_iff _ _ _ _).mpr ⟨e', ⟨k, r.value, r.timestamp, false⟩,
              hJl, hlive', hGr, rfl, rfl⟩
          refine ⟨by rw [hget, hget'], ?_, ?_⟩
          · show Index.has J k = Index.has (run ops).index k
            unfold Index.has
            rw [hJl, hl]
            simp [hd', hlive']
          · constructor
            · intro _
              exact (mem_keys_iff hnd k).mpr ⟨e, hl, hd'⟩
            · intro _
              refine hkeysJ.mpr ?_
              exact List.mem_map.mpr ⟨(k, e'), lookupEntry_mem hJl, rfl⟩
  exact ⟨⟨G, J⟩, hcomp, key.1, key.2.1, key.2.2, hG, hJ⟩

/-! ## The on-disk record format and startup recovery
(`internal/storage/bitcask.go`: `writeEntry`, `readEntry`, `rebuildIndex`,
`NewBitcask`)

Here the file is raw bytes (`List Nat`, each element one byte).  Record layout,
big-endian: CRC-32(4) ++ Timestamp(8) ++ KeyLen(4) ++ ValueLen(4) ++
Deleted(1) ++ Key ++ Value. -/

/-- Big-endian encoding of `v` in `w` bytes (source: `binary.BigEndian.PutUintNN`). -/
def beBytes : Nat → Nat → List Nat
  | 0, _ => []
  | w + 1, v => beBytes w (v / 256) ++ [v % 256]

/-- Big-endian decoding (source: `binary.BigEndian.UintNN`). -/
def beVal (l : List Nat) : Nat := l.foldl (fun acc b => acc * 256 + b) 0

/-- The reversed IEEE CRC-32 polynomial used by `hash/crc32.ChecksumIEEE`. -/
def crcPoly : Nat := 0xEDB88320

/-- One bit step of the reflected CRC-32. -/
def crcRound (c : Nat) : Nat := if c % 2 = 1 then (c / 2) ^^^ crcPoly else c / 2

/-- One byte step of the reflected CRC-32. -/
def crcByte (c b : Nat) : Nat := crcRound^[8] (c ^^^ (b % 256))

/-- Source: `crc32.ChecksumIEEE` — reflected CRC-32 over the data bytes. -/
def crc32 (data : List Nat) : Nat :=
  (data.foldl crcByte 0xFFFFFFFF) ^^^ 0xFFFFFFFF

/-- A record as encoded on disk; the timestamp is the stored `uint64`
(`writeEntry` casts the `int64` through `uint64(timestamp)`). -/
structure RawEntry where
  key : List Nat
  value : List Nat
  timestamp : Nat
  isDeleted : Bool
deriving Repr, DecidableEq

/-- Source: `Bitcask.writeEntry` — the exact bytes appended for one record:
the CRC is computed over `header[4:] ++ key ++ value`. -/
def encodeEntry (e : RawEntry) : List Nat :=
  let headerTail := beBytes 8 e.timestamp ++ beBytes 4 e.key.length ++
    beBytes 4 e.value.length ++ [if e.isDeleted then 1 else 0]
  beBytes 4 (crc32 (headerTail ++ e.key ++ e.value)) ++ headerTail ++ e.key ++ e.value

/-- Outcome of `Bitcask.readEntry`:  `eof` is a clean end (zero bytes left, the
only case `rebuildIndex` treats as success), `shortRead` a failed
`io.ReadFull`, `corrupt` is `ErrCorruptData` from the CRC comparison. -/
inductive ReadEntryResult where
  | eof
  | shortRead
  | corrupt
  | ok (e : RawEntry) (bytesRead : Nat)
deriving Repr, DecidableEq

/-- Source: `Bitcask.readEntry` — parse one record from the head of `bytes`. -/
def readEntryBytes (bytes : List Nat) : ReadEntryResult :=
  if bytes.isEmpty then .eof
  else if bytes.length < 21 then .shortRead
  else
    let header := bytes.take 21
    let storedCRC := beVal (header.take 4)
    let timestamp := beVal ((header.drop 4).take 8)
    let keyLen := beVal ((header.drop 12).take 4)
    let valueLen := beVal ((header.drop 16).take 4)
    let isDel := header.getD 20 0 == 1
    let rest := bytes.drop 21
    if rest.length < keyLen then .shortRead
    else
      let key := rest.take keyLen
      let rest2 := rest.drop keyLen
      if rest2.length < valueLen then .shortRead
      else
        let value := rest2.take valueLen
        if storedCRC ≠ crc32 (header.drop 4 ++ key ++ value) then .corrupt
        else .ok ⟨key, value, timestamp, isDel⟩ (21 + keyLen + valueLen)

theorem readEntryBytes_ok_pos {bytes : List Nat} {e : RawEntry} {n : Nat}
    (h : readEntryBytes bytes = .ok e n) : 0 < bytes.length ∧ 0 < n := by
  unfold readEntryBytes at h
  by_cases h1 : bytes.isEmpty
  · rw [if_pos h1] at h; cases h
  rw [if_neg h1] at h
  by_cases h2 : bytes.length < 21
  · rw [if_pos h2] at h; cases h
  rw [if_neg h2] at h
  refine ⟨by omega, ?_⟩
  dsimp only at h
  split_ifs at h with h3 h4 h5 <;> cases h
  omega

theorem readEntryBytes_corrupt_ne_nil {bytes : List Nat}
    (h : readEntryBytes bytes = .corrupt) : bytes.length ≠ 0 := by
  intro hlen
  obtain rfl : bytes = [] := List.length_eq_zero.mp hlen
  simp [readEntryBytes] at h

/-- Source: the loop of `Bitcask.rebuildIndex` — read records sequentially from
offset 0; `io.EOF` ends recovery successfully, any other error (short read or
CRC mismatch) is returned, which makes `NewBitcask` fail. -/
def rebuildEntries (bytes : List Nat) : Except Unit (List RawEntry) :=
  match h : readEntryBytes bytes with
  | .eof => .ok []
  | .shortRead => .error ()
  | .corrupt => .error ()
  | .ok e n =>
      match rebuildEntries (bytes.drop n) with
      | .error u => .error u
      | .ok rest => .ok (e :: rest)
termination_by bytes.length
decreasing_by
  simp only [List.length_drop]
  have := readEntryBytes_ok_pos h
  omega

/-- The stored `uint64` timestamp reinterpreted as Go's `int64`. -/
def asInt64 (n : Nat) : Int :=
  if n < 2 ^ 63 then (n : Int) else (n : Int) - 2 ^ 64

/-- Source: the index updates performed by `Bitcask.rebuildIndex` on the
successfully parsed prefix: `Index.Delete` for tombstones, `Index.Put` with
the record's byte offset and value size otherwise. -/
def recoveryIndex (recs : List RawEntry) : Index (List Nat) :=
  (recs.foldl
    (fun (acc : Index (List Nat) × Nat) e =>
      (if e.isDeleted then acc.1.del e.key (asInt64 e.timestamp)
       else acc.1.put e.key acc.2 e.value.length (asInt64 e.timestamp),
       acc.2 + (21 + e.key.length + e.value.length)))
    (Index.empty, 0)).1

/-- Source: `NewBitcask` — on a non-empty data file, recovery must parse the
whole file; any `rebuildIndex` error aborts the open (the file is *not*
truncated).  On success the store opens with the index rebuilt from the parsed
records. -/
def newBitcaskBytes (fileBytes : List Nat) : Except Unit (Index (List Nat)) :=
  if fileBytes.length = 0 then .ok Index.empty
  else
    match rebuildEntries fileBytes with
    | .error u => .error u
    | .ok recs => .ok (recoveryIndex recs)

/-! ### Round-trip of the record encoding -/

theorem beBytes_length (w v : Nat) : (beBytes w v).length = w := by
  induction w generalizing v with
  | zero => rfl
  | succ w ih => simp [beBytes, ih]

theorem beVal_append_one (l : List Nat) (b : Nat) :
    beVal (l ++ [b]) = beVal l * 256 + b := by
  simp [beVal, List.foldl_append]

theorem beVal_beBytes_mod (w v : Nat) : beVal (beBytes w v) = v % 256 ^ w := by
  induction w generalizing v with
  | zero => simp [beBytes, beVal, Nat.mod_one]
  | succ w ih =>
      rw [beBytes, beVal_append_one, ih, pow_succ, mul_comm (256 ^ w) 256, Nat.mod_mul]
      ring

theorem beVal_beBytes (w v : Nat) (h : v < 256 ^ w) : beVal (beBytes w v) = v := by
  rw [beVal_beBytes_mod, Nat.mod_eq_of_lt h]

theorem crcRound_lt {c : Nat} (h : c < 2 ^ 32) : crcRound c < 2 ^ 32 := by
  unfold crcRound
  split_ifs
  · exact Nat.xor_lt_two_pow (lt_of_le_of_lt (Nat.div_le_self c 2) h) (by norm_num [crcPoly])
  · exact lt_of_le_of_lt (Nat.div_le_self c 2) h

theorem crcByte_lt {c : Nat} (b : Nat) (h : c < 2 ^ 32) : crcByte c b < 2 ^ 32 := by
  unfold crcByte
  have hx : c ^^^ b % 256 < 2 ^ 32 :=
    Nat.xor_lt_two_pow h (lt_of_lt_of_le (Nat.mod_lt b (by norm_num)) (by norm_num))
  have main : ∀ (n : Nat) (x : Nat), x < 2 ^ 32 → crcRound^[n] x < 2 ^ 32 := by
    intro n
    induction n with
    | zero => intro x hxx; simpa using hxx
    | succ n ih =>
        intro x hxx
        rw [Function.iterate_succ_apply]
        exact ih _ (crcRound_lt hxx)
  exact main 8 _ hx

theorem crc32_lt (data : List Nat) : crc32 data < 2 ^ 32 := by
  unfold crc32
  have main : ∀ (l : List Nat) (acc : Nat), acc < 2 ^ 32 →
      l.foldl crcByte acc < 2 ^ 32 := by
    intro l
    induction l with
    | nil => intro acc h; simpa using h
    | cons b bs ih => intro acc h; exact ih _ (crcByte_lt b h)
  exact Nat.xor_lt_two_pow (main data 0xFFFFFFFF (by norm_num)) (by norm_num)

theorem encodeEntry_length (e : RawEntry) :
    (encodeEntry e).length = 21 + e.key.length + e.value.length := by
  simp only [encodeEntry, List.length_append, beBytes_length, List.length_cons,
    List.length_nil]

/-- Parsing the bytes written by `writeEntry` recovers exactly the written
record and consumes exactly its encoded length, for any trailing bytes. -/
theorem readEntryBytes_encode (e : RawEntry) (rest : List Nat)
    (hk : e.key.length < 2 ^ 32) (hv : e.value.length < 2 ^ 32)
    (ht : e.timestamp < 2 ^ 64) :
    readEntryBytes (encodeEntry e ++ rest) =
      .ok e (21 + e.key.length + e.value.length) := by
  have hflagv : (if e.isDeleted then (1 : Nat) else 0) = (if e.isDeleted then 1 else 0) := rfl
  set flag : Nat := if e.isDeleted then 1 else 0 with hflag
  set tailH : List Nat := beBytes 8 e.timestamp ++ beBytes 4 e.key.length ++
    beBytes 4 e.value.length ++ [flag] with htail
  set crc : Nat := crc32 (tailH ++ e.key ++ e.value) with hcrc
  have henc : encodeEntry e = beBytes 4 crc ++ tailH ++ e.key ++ e.value := rfl
  have hlenT : tailH.length = 17 := by
    rw [htail]; simp [beBytes_length]
  have hlenH : (beBytes 4 crc ++ tailH).length = 21 := by
    simp [beBytes_length, hlenT]
  have hbytes : encodeEntry e ++ rest =
      (beBytes 4 crc ++ tailH) ++ (e.key ++ (e.value ++ rest)) := by
    rw [henc]; simp [List.append_assoc]
  have htake21 : ((beBytes 4 crc ++ tailH) ++ (e.key ++ (e.value ++ rest))).take 21 =
      beBytes 4 crc ++ tailH := List.take_left' hlenH
  have hdrop21 : ((beBytes 4 crc ++ tailH) ++ (e.key ++ (e.value ++ rest))).drop 21 =
      e.key ++ (e.value ++ rest) := List.drop_left' hlenH
  have htake4 : (beBytes 4 crc ++ tailH).take 4 = beBytes 4 crc :=
    List.take_left' (beBytes_length 4 crc)
  have hdrop4 : (beBytes 4 crc ++ tailH).drop 4 = tailH :=
    List.drop_left' (beBytes_length 4 crc)
  have hts : tailH.take 8 = beBytes 8 e.timestamp := by
    rw [htail, List.append_assoc, List.append_assoc]
    exact List.take_left' (beBytes_length 8 e.timestamp)
  have hassoc12 : beBytes 4 crc ++ tailH =
      (beBytes 4 crc ++ beBytes 8 e.timestamp) ++
        (beBytes 4 e.key.length ++ (beBytes 4 e.value.length ++ [flag])) := by
    rw [htail]; simp [List.append_assoc]
  have hdrop12 : (beBytes 4 crc ++ tailH).drop 12 =
      beBytes 4 e.key.length ++ (beBytes 4 e.value.length ++ [flag]) := by
    rw [hassoc12]
    exact List.drop_left' (by simp [beBytes_length])
  have htakeKL : (beBytes 4 e.key.length ++ (beBytes 4 e.value.length ++ [flag])).take 4 =
      beBytes 4 e.key.length := List.take_left' (beBytes_length 4 e.key.length)
  have hassoc16 : beBytes 4 crc ++ tailH =
      ((beBytes 4 crc ++ beBytes 8 e.timestamp) ++ beBytes 4 e.key.length) ++
        (beBytes 4 e.value.length ++ [flag]) := by
    rw [htail]; simp [List.append_assoc]
  have hdrop16 : (beBytes 4 crc ++ tailH).drop 16 =
      beBytes 4 e.value.length ++ [flag] := by
    rw [hassoc16]
    exact List.drop_left' (by simp [beBytes_length])
  have htakeVL : (beBytes 4 e.value.length ++ [flag]).take 4 =
      beBytes 4 e.value.length := List.take_left' (beBytes_length 4 e.value.length)
  have hassoc20 : beBytes 4 crc ++ tailH =
      (((beBytes 4 crc ++ beBytes 8 e.timestamp) ++ beBytes 4 e.key.length) ++
        beBytes 4 e.value.length) ++ [flag] := by
    rw [htail]; simp [List.append_assoc]
  have hget20 : (beBytes 4 crc ++ tailH).getD 20 0 = flag := by
    rw [hassoc20]
    have hl20 : (((beBytes 4 crc ++ beBytes 8 e.timestamp) ++ beBytes 4 e.key.length) ++
        beBytes 4 e.value.length).length = 20 := by simp [beBytes_length]
    have hsome : ((((beBytes 4 crc ++ beBytes 8 e.timestamp) ++ beBytes 4 e.key.length) ++
        beBytes 4 e.value.length) ++ [flag])[(20 : Nat)]? = some flag := by
      rw [show (20 : Nat) = (((beBytes 4 crc ++ beBytes 8 e.timestamp) ++
        beBytes 4 e.key.length) ++ beBytes 4 e.value.length).length from hl20.symm]
      exact List.getElem?_concat_length _ _
    rw [List.getD_eq_getElem?_getD, hsome]
    rfl
  have hkeyTake : (e.key ++ (e.value ++ rest)).take e.key.length = e.key :=
    List.take_left' rfl
  have hkeyDrop : (e.key ++ (e.value ++ rest)).drop e.key.length = e.value ++ rest :=
    List.drop_left' rfl
  have hvalTake : (e.value ++ rest).take e.value.length = e.value :=
    List.take_left' rfl
  have hcrcval : beVal (beBytes 4 crc) = crc := beVal_beBytes 4 crc (by
    have := crc32_lt (tailH ++ e.key ++ e.value)
    rw [hcrc]
    norm_num
    exact this)
  have hklval : beVal (beBytes 4 e.key.length) = e.key.length :=
    beVal_beBytes 4 _ (by norm_num; exact hk)
  have hvlval : beVal (beBytes 4 e.value.length) = e.value.length :=
    beVal_beBytes 4 _ (by norm_num; exact hv)
  have htsval : beVal (beBytes 8 e.timestamp) = e.timestamp :=
    beVal_beBytes 8 _ (by norm_num; exact ht)
  rw [hbytes]
  unfold readEntryBytes
  rw [if_neg (by
    intro hemp
    have hlen0 : (beBytes 4 crc ++ tailH ++ (e.key ++ (e.value ++ rest))).length = 0 := by
      rw [List.isEmpty_iff.mp hemp]
      rfl
    rw [List.length_append, hlenH] at hlen0
    omega)]
  rw [if_neg (by
    simp only [List.length_append, hlenH]
    omega)]
  dsimp only
  rw [htake21, hdrop21, htake4, hdrop4, hts, hdrop12, htakeKL, hdrop16, htakeVL,
    hget20, hcrcval, hklval, hvlval, htsval, hkeyTake, hkeyDrop, hvalTake]
  rw [if_neg (by simp), if_neg (by simp)]
  rw [if_neg (by simp [hcrc])]
  congr 1
  cases hdel : e.isDeleted <;> simp [hflag, hdel] <;> rw [← hdel]

theorem rebuildEntries_corrupt {bytes : List Nat}
    (h : readEntryBytes bytes = .corrupt) : rebuildEntries bytes = .error () := by
  conv_lhs => rw [rebuildEntries]
  split <;> simp_all

theorem rebuildEntries_shortRead {bytes : List Nat}
    (h : readEntryBytes bytes = .shortRead) : rebuildEntries bytes = .error () := by
  conv_lhs => rw [rebuildEntries]
  split <;> simp_all

theorem rebuildEntries_step {bytes : List Nat} {e : RawEntry} {n : Nat}
    (h : readEntryBytes bytes = .ok e n) :
    rebuildEntries bytes = (match rebuildEntries (bytes.drop n) with
      | .error u => .error u
      | .ok rest => .ok (e :: rest)) := by
  conv_lhs => rw [rebuildEntries]
  split <;> simp_all

/-- C3 (amended): for every data file consisting of validly encoded records
followed by a tail whose first record fails CRC verification, opening the
store FAILS: recovery parses the valid prefix, hits the corrupt record, and
`NewBitcask` propagates the error instead of truncating the file. -/
theorem C3_corrupt_tail_fails_open (recs : List RawEntry) (tail : List Nat)
    (hwf : ∀ e ∈ recs, e.key.length < 2 ^ 32 ∧ e.value.length < 2 ^ 32 ∧
      e.timestamp < 2 ^ 64)
    (hcor : readEntryBytes tail = .corrupt) :
    newBitcaskBytes ((recs.map encodeEntry).join ++ tail) = .error () := by
  induction recs with
  | nil =>
      simp only [List.map_nil, List.join_nil, List.nil_append]
      unfold newBitcaskBytes
      rw [if_neg (readEntryBytes_corrupt_ne_nil hcor), rebuildEntries_corrupt hcor]
  | cons e rs ih =>
      have hwf_e := hwf e (List.mem_cons_self _ _)
      have hjoin : (((e :: rs).map encodeEntry).join ++ tail) =
          encodeEntry e ++ ((rs.map encodeEntry).join ++ tail) := by
        simp [List.append_assoc]
      rw [hjoin]
      have hinner : rebuildEntries ((rs.map encodeEntry).join ++ tail) = .error () := by
        have hrec := ih (fun x hx => hwf x (List.mem_cons_of_mem _ hx))
        unfold newBitcaskBytes at hrec
        by_cases hz : ((rs.map encodeEntry).join ++ tail).length = 0
        · rw [List.length_append] at hz
          exact absurd (by omega) (readEntryBytes_corrupt_ne_nil hcor)
        · rw [if_neg hz] at hrec
          cases hre : rebuildEntries ((rs.map encodeEntry).join ++ tail) with
          | error u => cases u; rfl
          | ok recs2 => rw [hre] at hrec; cases hrec
      have hread := readEntryBytes_encode e ((rs.map encodeEntry).join ++ tail)
        hwf_e.1 hwf_e.2.1 hwf_e.2.2
      have hstep := rebuildEntries_step hread
      unfold newBitcaskBytes
      rw [if_neg (by
        simp only [List.length_append, encodeEntry_length]
        omega)]
      rw [hstep, List.drop_left' (encodeEntry_length e), hinner]

/-- A one-record valid prefix: key `"k"`, value `"v"`. -/
def demoGoodRecord : RawEntry := ⟨[107], [118], 100, false⟩

/-- A validly encoded record for key `"k"`, value `"w"`, with its first byte
(the most significant CRC byte) flipped, so its CRC check fails. -/
def demoCorruptTail : List Nat :=
  match encodeEntry ⟨[107], [119], 200, false⟩ with
  | [] => []
  | b :: bs => ((b + 1) % 256) :: bs

set_option maxRecDepth 1000000 in
/-- C3 (counterexample): a concrete data file whose prefix parses as one valid
record and whose bytes at that offset fail CRC verification; opening the store
does NOT succeed — `NewBitcask` returns an error and no truncation happens,
contrary to the claim. -/
theorem C3_counterexample :
    readEntryBytes demoCorruptTail = .corrupt ∧
    rebuildEntries (encodeEntry demoGoodRecord ++ demoCorruptTail) = .error () ∧
    newBitcaskBytes (encodeEntry demoGoodRecord ++ demoCorruptTail) = .error () := by
  have h1 : readEntryBytes demoCorruptTail = .corrupt := by decide
  have hread := readEntryBytes_encode demoGoodRecord demoCorruptTail
    (by decide) (by decide) (by decide)
  have h2 : rebuildEntries (encodeEntry demoGoodRecord ++ demoCorruptTail) = .error () := by
    rw [rebuildEntries_step hread, List.drop_left' (encodeEntry_length demoGoodRecord),
      rebuildEntries_corrupt h1]
  refine ⟨h1, h2, ?_⟩
  unfold newBitcaskBytes
  rw [if_neg (by decide), h2]

set_option maxRecDepth 1000000 in
theorem C3_amended_witness :
    readEntryBytes demoCorruptTail = .corrupt ∧
    newBitcaskBytes (([demoGoodRecord].map encodeEntry).join ++ demoCorruptTail) =
      .error () :=
  ⟨by decide,
    C3_corrupt_tail_fails_open [demoGoodRecord] demoCorruptTail (by decide) (by decide)⟩

/-! ## The placement ring (`internal/ring/hash_ring.go`)

The Go implementation hashes with MurmurHash3-x64 (`spaolacci/murmur3`); the
ring logic only ever *compares* hash values, so the model is parameterized by
the hash function `h : String → Nat`, and every theorem below is proved for
all `h` — in particular for the Murmur instance. -/

/-- Source: `ring.VNode`. -/
structure VNode where
  hash : Nat
  nodeID : String
  vnodeIdx : Nat
deriving Repr, DecidableEq

/-- Source: `ring.HashRing` — the sorted virtual-node list, the per-node token
map, and the virtual-node count. -/
structure HashRing where
  vnodes : List VNode
  nodeVNodes : List (String × List Nat)
  virtualCount : Nat
deriving Repr, DecidableEq

/-- Source: `NewHashRing` — `virtualNodes < 1` falls back to the default 150. -/
def HashRing.new (virtualNodes : Nat) : HashRing :=
  { vnodes := [], nodeVNodes := [],
    virtualCount := if virtualNodes < 1 then 150 else virtualNodes }

/-- Source: the virtual-node key `fmt.Sprintf("%s#vnode%d", nodeID, i)`. -/
def vnodeKey (nodeID : String) (i : Nat) : String :=
  nodeID ++ "#vnode" ++ toString i

/-- Insertion into a hash-sorted token list (the model of keeping `vnodes`
sorted by `sort.Slice` on `Hash`; the Go sort's order on equal hashes is
unspecified, insertion order is one admissible outcome). -/
def insertByHash (v : VNode) : List VNode → List VNode
  | [] => [v]
  | w :: ws => if v.hash < w.hash then v :: w :: ws else w :: insertByHash v ws

def sortByHash (l : List VNode) : List VNode :=
  l.foldl (fun acc v => insertByHash v acc) []

/-- Source: `HashRing.AddNode` — a no-op for a present node, otherwise inserts
`virtualCount` tokens hashed from the vnode keys and re-sorts. -/
def HashRing.addNode (h : String → Nat) (r : HashRing) (nodeID : String) : HashRing :=
  if (r.nodeVNodes.lookup nodeID).isSome then r
  else
    let newTokens := (List.range r.virtualCount).map
      (fun i => VNode.mk (h (vnodeKey nodeID i)) nodeID i)
    { vnodes := sortByHash (r.vnodes ++ newTokens),
      nodeVNodes := r.nodeVNodes ++ [(nodeID, newTokens.map VNode.hash)],
      virtualCount := r.virtualCount }

/-- Source: the `sort.Search` in `GetNode`/`GetNodes` — the least index whose
token hash is `≥` the key hash, wrapping to 0 past the end. -/
def searchStart (vnodes : List VNode) (hk : Nat) : Nat :=
  let idx := vnodes.findIdx (fun v => hk ≤ v.hash)
  if idx ≥ vnodes.length then 0 else idx

/-- Source: the collection loop of `GetNodes`: visit tokens in ring order,
keeping the first occurrence of each distinct physical node id, stopping at
`n` ids. -/
def collectDistinct (n : Nat) : List String → List String → List String
  | acc, [] => acc
  | acc, x :: xs =>
      if n ≤ acc.length then acc
      else if x ∈ acc then collectDistinct n acc xs
      else collectDistinct n (acc ++ [x]) xs

/-- Source: `HashRing.GetNodes` — the preference list.  The loop indices
`(startIdx + i) % len` for `i < len` visit exactly `vnodes.rotate startIdx`
in order. -/
def HashRing.getNodes (h : String → Nat) (r : HashRing) (key : String) (n : Nat) :
    Except Unit (List String) :=
  if r.vnodes.isEmpty then .error ()
  else
    .ok (collectDistinct n [] ((r.vnodes.rotate (searchStart r.vnodes (h key))).map VNode.nodeID))

theorem collectDistinct_spec (n : Nat) :
    ∀ (l acc : List String), acc.Nodup → acc.length ≤ n →
      (collectDistinct n acc l).Nodup ∧
      (∀ x ∈ collectDistinct n acc l, x ∈ acc ∨ x ∈ l) ∧
      (collectDistinct n acc l).length = min n (acc ++ l).toFinset.card := by
  intro l
  induction l with
  | nil =>
      intro acc hnd hle
      refine ⟨hnd, fun x hx => Or.inl hx, ?_⟩
      simp only [List.append_nil, collectDistinct]
      rw [List.toFinset_card_of_nodup hnd, min_eq_right hle]
  | cons x xs ih =>
      intro acc hnd hle
      by_cases hfull : n ≤ acc.length
      · have hstop : collectDistinct n acc (x :: xs) = acc := by
          simp [collectDistinct, hfull]
        have hlen : acc.length = n := le_antisymm hle hfull
        rw [hstop]
        refine ⟨hnd, fun y hy => Or.inl hy, ?_⟩
        have hsub : acc.toFinset ⊆ (acc ++ x :: xs).toFinset := by
          rw [List.toFinset_append]
          exact Finset.subset_union_left
        have hcard : n ≤ (acc ++ x :: xs).toFinset.card := by
          calc n = acc.toFinset.card := by
                rw [List.toFinset_card_of_nodup hnd, hlen]
            _ ≤ _ := Finset.card_le_card hsub
        rw [hlen, min_eq_left hcard]
      · push_neg at hfull
        by_cases hmem : x ∈ acc
        · have hstepeq : collectDistinct n acc (x :: xs) = collectDistinct n acc xs := by
            simp [collectDistinct, hmem, Nat.not_le.mpr hfull]
          obtain ⟨h1, h2, h3⟩ := ih acc hnd hle
          rw [hstepeq]
          refine ⟨h1, fun y hy => (h2 y hy).imp id (List.mem_cons_of_mem x), ?_⟩
          rw [h3]
          congr 1
          rw [List.toFinset_append, List.toFinset_append, List.toFinset_cons,
            Finset.union_insert,
            Finset.insert_eq_self.mpr (Finset.mem_union_left _ (List.mem_toFinset.mpr hmem))]
        · have hstepeq : collectDistinct n acc (x :: xs) =
              collectDistinct n (acc ++ [x]) xs := by
            simp [collectDistinct, hmem, Nat.not_le.mpr hfull]
          have hnd' : (acc ++ [x]).Nodup := by
            rw [List.nodup_append]
            exact ⟨hnd, by simp, by
              intro a ha hb
              simp only [List.mem_singleton] at hb
              subst hb
              exact hmem ha⟩
          have hle' : (acc ++ [x]).length ≤ n := by
            simp only [List.length_append, List.length_cons, List.length_nil]
            omega
          obtain ⟨h1, h2, h3⟩ := ih (acc ++ [x]) hnd' hle'
          rw [hstepeq]
          refine ⟨h1, ?_, ?_⟩
          · intro y hy
            rcases h2 y hy with hya | hyxs
            · rcases List.mem_append.mp hya with hy1 | hy1
              · exact Or.inl hy1
              · simp only [List.mem_singleton] at hy1
                subst hy1
                exact Or.inr (List.mem_cons_self _ _)
            · exact Or.inr (List.mem_cons_of_mem x hyxs)
          · rw [h3, List.append_assoc, List.singleton_append]

/-- C8: for every hash function, key and `n ≥ 1`, on every non-empty ring
`preference_list(key, n)` succeeds and returns pairwise-distinct physical node
ids drawn from the ring (collected by walking the token order forward with
wraparound from the first token with hash `≥ hash(key)`), and its length is
exactly `min n (number of distinct physical nodes on the ring)`. -/
theorem C8_preference_list (h : String → Nat) (r : HashRing) (key : String) (n : Nat)
    (hne : r.vnodes ≠ []) (hn : 1 ≤ n) :
    ∃ res, r.getNodes h key n = .ok res ∧ res.Nodup ∧
      (∀ id ∈ res, id ∈ r.vnodes.map VNode.nodeID) ∧
      res.length = min n (r.vnodes.map VNode.nodeID).toFinset.card := by
  have hperm : ((r.vnodes.rotate (searchStart r.vnodes (h key))).map VNode.nodeID).Perm
      (r.vnodes.map VNode.nodeID) := (r.vnodes.rotate_perm _).map VNode.nodeID
  obtain ⟨h1, h2, h3⟩ := collectDistinct_spec n
    ((r.vnodes.rotate (searchStart r.vnodes (h key))).map VNode.nodeID) [] (by simp) (by simp)
  refine ⟨collectDistinct n []
    ((r.vnodes.rotate (searchStart r.vnodes (h key))).map VNode.nodeID), ?_, h1, ?_, ?_⟩
  · unfold HashRing.getNodes
    rw [if_neg (by simpa using hne)]
  · intro id hid
    rcases h2 id hid with hid0 | hid1
    · cases hid0
    · exact hperm.mem_iff.mp hid1
  · rw [h3, List.nil_append, List.toFinset_eq_of_perm _ _ hperm]

theorem C8_preference_list_witness :
    (HashRing.new 1 |>.addNode String.length "n1" |>.addNode String.length "n2").vnodes ≠ [] ∧
    ∃ res, (HashRing.new 1 |>.addNode String.length "n1" |>.addNode String.length "n2").getNodes
        String.length "k" 2 = .ok res ∧ res.Nodup ∧
      (∀ id ∈ res, id ∈ ((HashRing.new 1 |>.addNode String.length "n1"
        |>.addNode String.length "n2").vnodes.map VNode.nodeID)) ∧
      res.length = min 2 (((HashRing.new 1 |>.addNode String.length "n1"
        |>.addNode String.length "n2").vnodes.map VNode.nodeID)).toFinset.card :=
  ⟨by decide,
    C8_preference_list String.length
      (HashRing.new 1 |>.addNode String.length "n1" |>.addNode String.length "n2")
      "k" 2 (by decide) (by decide)⟩

/-! ## The coordinator (`internal/replication/coordinator.go`,
`internal/replication/quorum.go`)

`types.ConsistencyLevel` is a Go string; the quorum switches treat `"one"` and
`"all"` specially and everything else (in particular `"quorum"`) through the
default branch. -/

/-- Source: the `config.Config` fields the coordinator reads. -/
structure Config where
  nodeID : String
  replicationFactor : Nat
  readQuorum : Nat
  writeQuorum : Nat
deriving Repr, DecidableEq

/-- Source: `Coordinator.getWriteQuorum`. -/
def getWriteQuorum (cfg : Config) (consistency : String) : Nat :=
  if consistency = "one" then 1
  else if consistency = "all" then cfg.replicationFactor
  else cfg.writeQuorum

/-- Source: `Coordinator.getReadQuorum`. -/
def getReadQuorum (cfg : Config) (consistency : String) : Nat :=
  if consistency = "one" then 1
  else if consistency = "all" then cfg.replicationFactor
  else cfg.readQuorum

/-- Source: `replication.QuorumManager`. -/
structure QuorumManager where
  replicationFactor : Nat
  readQuorum : Nat
  writeQuorum : Nat
deriving Repr, DecidableEq

/-- Source: `QuorumManager.getWriteRequirement`. -/
def QuorumManager.getWriteRequirement (qm : QuorumManager) (consistency : String) : Nat :=
  if consistency = "one" then 1
  else if consistency = "all" then qm.replicationFactor
  else qm.writeQuorum

/-- Source: `QuorumManager.getReadRequirement`. -/
def QuorumManager.getReadRequirement (qm : QuorumManager) (consistency : String) : Nat :=
  if consistency = "one" then 1
  else if consistency = "all" then qm.replicationFactor
  else qm.readQuorum

/-- Source: `types.KeyValueEntry` (the vector-clock field is never assigned by
the coordinator's write path and is omitted). -/
structure KVEntry where
  key : String
  value : List Nat
  timestamp : Int
  isDeleted : Bool
deriving Repr, DecidableEq

/-- One process's replication-relevant state as wired by the process main:
the local storage engine plus the hinted-handoff store
(`HintedHandoffStore.hints`, a per-target queue map).  The `Coordinator`
struct itself holds no reference to the handoff store. -/
structure NodeSystem where
  storage : Bitcask
  handoffHints : List (String × List KVEntry)
deriving Repr, DecidableEq

/-- Source: `HintedHandoffStore.Store` — appends a hint for `targetNode`
(evicting the oldest when the per-target queue is full); this is the only
operation that adds hints, and nothing in the coordinator's write path calls
it. -/
def handoffStoreHint (hints : List (String × List KVEntry)) (maxSize : Nat)
    (targetNode : String) (entry : KVEntry) : List (String × List KVEntry) :=
  match hints.lookup targetNode with
  | none => hints ++ [(targetNode, [entry])]
  | some q =>
      let q' := if maxSize ≤ q.length then q.drop 1 else q
      hints.map (fun p => if p.1 = targetNode then (p.1, q' ++ [entry]) else p)

/-- The outcome of a coordinated write: the updated system state, the
per-node success map, and whether the required ack count was reached. -/
structure PutOutcome where
  sys : NodeSystem
  results : List (String × Bool)
  ok : Bool
deriving Repr, DecidableEq

/-- Source: `Coordinator.replicateToNodes` — one write per preference-list
entry: the local node writes to its own storage engine (the abstract engine's
append cannot fail), a remote node succeeds iff its replication RPC does;
`remoteOk` is the environment deciding each remote RPC's fate. -/
def replicateToNodes (cfg : Config) (sys : NodeSystem) (remoteOk : String → Bool)
    (nodes : List String) (entry : KVEntry) : NodeSystem × List (String × Bool) :=
  nodes.foldl
    (fun acc nodeID =>
      if nodeID = cfg.nodeID then
        ({ acc.1 with storage := acc.1.storage.put entry.key entry.value entry.timestamp },
          acc.2 ++ [(nodeID, true)])
      else (acc.1, acc.2 ++ [(nodeID, remoteOk nodeID)]))
    (sys, [])

/-- Source: `Coordinator.Put` — compute the preference list (error when the
ring is empty), determine the required acks, replicate to all listed nodes,
count successes, and succeed iff the count reaches the requirement.  Neither
`Put` nor `replicateToNodes` references the hinted-handoff store. -/
def coordinatorPut (cfg : Config) (h : String → Nat) (ring : HashRing)
    (sys : NodeSystem) (remoteOk : String → Bool)
    (key : String) (value : List Nat) (ts : Int) (consistency : String) :
    Except Unit PutOutcome :=
  match ring.getNodes h key cfg.replicationFactor with
  | .error _ => .error ()
  | .ok preferenceList =>
      let requiredAcks := getWriteQuorum cfg consistency
      let entry : KVEntry := ⟨key, value, ts, false⟩
      let res := replicateToNodes cfg sys remoteOk preferenceList entry
      let successCount := (res.2.filter (fun p => p.2)).length
      .ok ⟨res.1, res.2, decide (requiredAcks ≤ successCount)⟩

/-- Source: the `sort.Slice(successfulResponses, Timestamp >)` call in
`Coordinator.Get`, modeled as a stable descending insertion sort: for the
short response slices at hand (at most the replication factor, far below Go's
insertion-sort cutoff of 12) the Go sort is an insertion sort and keeps the
input order among equal timestamps. -/
def insertDescTs (e : KVEntry) : List KVEntry → List KVEntry
  | [] => [e]
  | x :: xs => if x.timestamp < e.timestamp then e :: x :: xs else x :: insertDescTs e xs

def sortByTsDesc (l : List KVEntry) : List KVEntry :=
  l.foldl (fun acc e => insertDescTs e acc) []

/-- Source: `Coordinator.readFromNodes` plus the collection loop in `Get`:
responses are indexed by preference-list position and `nil` responses (RPC
errors, not-found) are dropped, keeping preference-list order. -/
def collectResponses (responses : String → Option KVEntry) (nodes : List String) :
    List KVEntry :=
  nodes.filterMap responses

/-- Source: `Coordinator.Get` — preference list, required read count, collect
the non-nil responses, fail with "key not found" when they fall short, else
sort by descending timestamp and answer from the first element.  (When the
sorted slice is empty Go would index out of bounds; the model returns an
error, which is unreachable for a positive requirement.) -/
def coordinatorGet (cfg : Config) (h : String → Nat) (ring : HashRing)
    (responses : String → Option KVEntry) (key : String) (consistency : String) :
    Except Unit (List Nat × Int) :=
  match ring.getNodes h key cfg.replicationFactor with
  | .error _ => .error ()
  | .ok preferenceList =>
      let requiredReads := getReadQuorum cfg consistency
      let successfulResponses := collectResponses responses preferenceList
      if successfulResponses.length < requiredReads then .error ()
      else
        match sortByTsDesc successfulResponses with
        | [] => .error ()
        | latest :: _ => .ok (latest.value, latest.timestamp)

/-- The earliest entry holding the maximum timestamp (specification device
for the amended read-winner property). -/
def firstMaxTs (l : List KVEntry) : Option KVEntry :=
  l.foldl
    (fun m e => match m with
      | none => some e
      | some x => if x.timestamp < e.timestamp then some e else some x)
    none

/-- The outcome of a read-repair pass: the coordinator's own storage after
the local check, and the remote peers that were sent a repair write. -/
structure RepairOutcome where
  storage : Bitcask
  sentTo : List String
deriving Repr, DecidableEq

/-- Source: the local-node condition in `Coordinator.readRepair`: repair when
the local read errs, is older than the winner, or differs in value at the
winning timestamp. -/
def needsLocalRepair (storage : Bitcask) (latest : KVEntry) : Bool :=
  match storage.get latest.key with
  | .error _ => true
  | .ok (v, ts) =>
      decide (ts < latest.timestamp) ||
        (decide (ts = latest.timestamp) && decide (v ≠ latest.value))

/-- Source: `Coordinator.readRepair` — for every node of the preference list:
the local node re-puts the winning record only under the staleness check;
every remote node is unconditionally sent the winning record over the
replication RPC. -/
def readRepair (cfg : Config) (storage : Bitcask) (nodes : List String)
    (latest : KVEntry) : RepairOutcome :=
  nodes.foldl
    (fun acc nodeID =>
      if nodeID = cfg.nodeID then
        match acc.storage.get latest.key with
        | .error _ =>
            { acc with storage := acc.storage.put latest.key latest.value latest.timestamp }
        | .ok (v, ts) =>
            if ts < latest.timestamp then
              { acc with storage := acc.storage.put latest.key latest.value latest.timestamp }
            else if ts = latest.timestamp ∧ v ≠ latest.value then
              { acc with storage := acc.storage.put latest.key latest.value latest.timestamp }
            else acc
      else { acc with sentTo := acc.sentTo ++ [nodeID] })
    ⟨storage, []⟩

/-! ## The client-facing delete (`handleDelete` in the API server) -/

/-- A cluster of named nodes, each with its own storage engine. -/
structure Cluster where
  nodes : List (String × Bitcask)
deriving Repr, DecidableEq

def lookupStore : List (String × Bitcask) → String → Option Bitcask
  | [], _ => none
  | (id, st) :: rest, nid => if id = nid then some st else lookupStore rest nid

/-- Source: `api.Server.handleDelete` — the DELETE handler chooses a local
wall-clock timestamp and calls `s.storage.Delete(key, timestamp)` on the
serving node's own storage engine only; it never consults the coordinator,
the ring, or the consistency query parameter.  Lifted to the cluster, the
handler running on `coordID` rewrites exactly that node's storage. -/
def clientDelete (cl : Cluster) (coordID key _consistency : String) (ts : Int) : Cluster :=
  ⟨cl.nodes.map (fun p => if p.1 = coordID then (p.1, p.2.del key ts) else p)⟩

/-! ### Shared concrete instances for the closed theorems -/

/-- A simple concrete stand-in hash (sum of character codes); the claims
settled on concrete instances do not depend on the hash beyond the positions
it assigns. -/
def demoHash : String → Nat := fun s => (s.data.map Char.toNat).sum

def demoRing : HashRing := ((HashRing.new 1).addNode demoHash "n1").addNode demoHash "n2"

def demoCfg : Config := ⟨"n1", 2, 2, 2⟩

/-! ### C9 — the quorum tables -/

/-- C9: for every configuration with replication factor N, read quorum R and
write quorum W, the required write-ack count is 1 / W / N and the required
read-response count is 1 / R / N for consistency levels one / quorum / all,
in both the coordinator's tables and the QuorumManager's. -/
theorem C9_quorum_tables (id : String) (n r w : Nat) :
    getWriteQuorum ⟨id, n, r, w⟩ "one" = 1 ∧
    getWriteQuorum ⟨id, n, r, w⟩ "quorum" = w ∧
    getWriteQuorum ⟨id, n, r, w⟩ "all" = n ∧
    getReadQuorum ⟨id, n, r, w⟩ "one" = 1 ∧
    getReadQuorum ⟨id, n, r, w⟩ "quorum" = r ∧
    getReadQuorum ⟨id, n, r, w⟩ "all" = n ∧
    QuorumManager.getWriteRequirement ⟨n, r, w⟩ "one" = 1 ∧
    QuorumManager.getWriteRequirement ⟨n, r, w⟩ "quorum" = w ∧
    QuorumManager.getWriteRequirement ⟨n, r, w⟩ "all" = n ∧
    QuorumManager.getReadRequirement ⟨n, r, w⟩ "one" = 1 ∧
    QuorumManager.getReadRequirement ⟨n, r, w⟩ "quorum" = r ∧
    QuorumManager.getReadRequirement ⟨n, r, w⟩ "all" = n := by
  refine ⟨?_, ?_, ?_, ?_, ?_, ?_, ?_, ?_, ?_, ?_, ?_, ?_⟩ <;>
    simp [getWriteQuorum, getReadQuorum, QuorumManager.getWriteRequirement,
      QuorumManager.getReadRequirement]

/-! ### C2 — the write path and the hinted-handoff buffer -/

theorem replicateToNodes_fold_hints (cfg : Config) (remoteOk : String → Bool)
    (entry : KVEntry) :
    ∀ (nodes : List String) (p : NodeSystem × List (String × Bool)),
      (nodes.foldl
        (fun acc nodeID =>
          if nodeID = cfg.nodeID then
            ({ acc.1 with storage := acc.1.storage.put entry.key entry.value entry.timestamp },
              acc.2 ++ [(nodeID, true)])
          else (acc.1, acc.2 ++ [(nodeID, remoteOk nodeID)])) p).1.handoffHints =
      p.1.handoffHints := by
  intro nodes
  induction nodes with
  | nil => intro p; rfl
  | cons nid rest ih =>
      intro p
      rw [List.foldl_cons, ih]
      by_cases hk : nid = cfg.nodeID <;> simp [hk]

/-- C2 (amended): a coordinated put deposits NO hint into the hinted-handoff
buffer — the buffer after the write equals the buffer before it, regardless
of which preference-list writes failed and regardless of whether the quorum
was met; a failed write merely does not count toward the ack count. -/
theorem C2_put_deposits_no_hints (cfg : Config) (h : String → Nat) (ring : HashRing)
    (sys : NodeSystem) (remoteOk : String → Bool) (key : String) (value : List Nat)
    (ts : Int) (consistency : String) (out : PutOutcome)
    (hout : coordinatorPut cfg h ring sys remoteOk key value ts consistency = .ok out) :
    out.sys.handoffHints = sys.handoffHints := by
  unfold coordinatorPut at hout
  cases hpl : ring.getNodes h key cfg.replicationFactor with
  | error u => rw [hpl] at hout; cases hout
  | ok pref =>
      rw [hpl] at hout
      dsimp only at hout
      obtain rfl := Except.ok.inj hout
      show (replicateToNodes cfg sys remoteOk pref ⟨key, value, ts, false⟩).1.handoffHints =
        sys.handoffHints
      exact replicateToNodes_fold_hints cfg remoteOk ⟨key, value, ts, false⟩ pref (sys, [])

def demoSys : NodeSystem := ⟨Bitcask.new, []⟩

set_option maxRecDepth 1000000 in
/-- C2 (counterexample): on a two-node ring with N = 2, a put whose write to
the remote replica `n2` fails (RPC error / dead node) leaves the hinted
handoff buffer EMPTY — no hint carrying `n2` and the record is deposited —
both when the quorum fails (`quorum` requires 2 acks) and when it succeeds
(`one` requires 1 ack). -/
theorem C2_counterexample :
    coordinatorPut demoCfg demoHash demoRing demoSys (fun _ => false) "k" [118] 5 "quorum" =
      .ok ⟨⟨Bitcask.new.put "k" [118] 5, []⟩, [("n1", true), ("n2", false)], false⟩ ∧
    coordinatorPut demoCfg demoHash demoRing demoSys (fun _ => false) "k" [118] 5 "one" =
      .ok ⟨⟨Bitcask.new.put "k" [118] 5, []⟩, [("n1", true), ("n2", false)], true⟩ := by
  decide

set_option maxRecDepth 1000000 in
theorem C2_put_deposits_no_hints_witness :
    coordinatorPut demoCfg demoHash demoRing demoSys (fun _ => false) "k" [118] 5 "quorum" =
      .ok ⟨⟨Bitcask.new.put "k" [118] 5, []⟩, [("n1", true), ("n2", false)], false⟩ ∧
    (⟨⟨Bitcask.new.put "k" [118] 5, []⟩, [("n1", true), ("n2", false)], false⟩ :
      PutOutcome).sys.handoffHints = demoSys.handoffHints :=
  ⟨by decide,
    C2_put_deposits_no_hints demoCfg demoHash demoRing demoSys (fun _ => false)
      "k" [118] 5 "quorum" _ (by decide)⟩

/-! ### C4 — the read winner -/

theorem head_insertDescTs (e : KVEntry) (s : List KVEntry) :
    (insertDescTs e s).head? =
      (match s.head? with
        | none => some e
        | some x => if x.timestamp < e.timestamp then some e else some x) := by
  cases s with
  | nil => rfl
  | cons x xs =>
      by_cases hlt : x.timestamp < e.timestamp <;> simp [insertDescTs, hlt]

theorem head_sort_fold (l : List KVEntry) :
    ∀ (s : List KVEntry),
      ((l.foldl (fun acc e => insertDescTs e acc) s).head?) =
        l.foldl
          (fun m e => match m with
            | none => some e
            | some x => if x.timestamp < e.timestamp then some e else some x)
          s.head? := by
  induction l with
  | nil => intro s; rfl
  | cons e es ih =>
      intro s
      rw [List.foldl_cons, List.foldl_cons, ih, head_insertDescTs]

theorem head_sortByTsDesc_eq_firstMaxTs (l : List KVEntry) :
    (sortByTsDesc l).head? = firstMaxTs l :=
  head_sort_fold l []

theorem firstMax_fold_aux :
    ∀ (l : List KVEntry) (x m : KVEntry),
      l.foldl
        (fun m e => match m with
          | none => some e
          | some x => if x.timestamp < e.timestamp then some e else some x)
        (some x) = some m →
      (m = x ∨ m ∈ l) ∧ x.timestamp ≤ m.timestamp ∧
        ∀ e ∈ l, e.timestamp ≤ m.timestamp := by
  intro l
  induction l with
  | nil =>
      intro x m hm
      obtain rfl := Option.some.inj hm
      exact ⟨Or.inl rfl, le_refl _, by simp⟩
  | cons e es ih =>
      intro x m hm
      rw [List.foldl_cons] at hm
      by_cases hlt : x.timestamp < e.timestamp
      · rw [show (match some x with
            | none => some e
            | some y => if y.timestamp < e.timestamp then some e else some y) =
            some e from by simp [hlt]] at hm
        obtain ⟨hm1, hm2, hm3⟩ := ih e m hm
        refine ⟨?_, le_trans (le_of_lt hlt) hm2, ?_⟩
        · rcases hm1 with rfl | h'
          · exact Or.inr (List.mem_cons_self _ _)
          · exact Or.inr (List.mem_cons_of_mem _ h')
        · intro y hy
          rcases List.mem_cons.mp hy with rfl | h'
          · exact hm2
          · exact hm3 y h'
      · rw [show (match some x with
            | none => some e
            | some y => if y.timestamp < e.timestamp then some e else some y) =
            some x from by simp [hlt]] at hm
        obtain ⟨hm1, hm2, hm3⟩ := ih x m hm
        refine ⟨?_, hm2, ?_⟩
        · rcases hm1 with rfl | h'
          · exact Or.inl rfl
          · exact Or.inr (List.mem_cons_of_mem _ h')
        · intro y hy
          rcases List.mem_cons.mp hy with rfl | h'
          · exact le_trans (not_lt.mp hlt) hm2
          · exact hm3 y h'

theorem firstMaxTs_spec (l : List KVEntry) (m : KVEntry)
    (hm : firstMaxTs l = some m) :
    m ∈ l ∧ ∀ e ∈ l, e.timestamp ≤ m.timestamp := by
  cases l with
  | nil => cases hm
  | cons e es =>
      unfold firstMaxTs at hm
      rw [List.foldl_cons] at hm
      obtain ⟨hm1, hm2, hm3⟩ := firstMax_fold_aux es e m hm
      refine ⟨?_, ?_⟩
      · rcases hm1 with rfl | h'
        · exact List.mem_cons_self _ _
        · exact List.mem_cons_of_mem _ h'
      · intro y hy
        rcases List.mem_cons.mp hy with rfl | h'
        · exact hm2
        · exact hm3 y h'

/-- C4 (amended): a successful coordinated read returns the value and
timestamp of the FIRST response, in preference-list order, that carries the
maximum timestamp among the collected responses; ties at the maximum
timestamp are broken by response position, not by byte-lexicographic value
order. -/
theorem C4_read_winner (cfg : Config) (h : String → Nat) (ring : HashRing)
    (responses : String → Option KVEntry) (key consistency : String)
    (v : List Nat) (ts : Int)
    (hok : coordinatorGet cfg h ring responses key consistency = .ok (v, ts)) :
    ∃ pref m, ring.getNodes h key cfg.replicationFactor = .ok pref ∧
      firstMaxTs (collectResponses responses pref) = some m ∧
      v = m.value ∧ ts = m.timestamp ∧
      m ∈ collectResponses responses pref ∧
      ∀ e ∈ collectResponses responses pref, e.timestamp ≤ m.timestamp := by
  unfold coordinatorGet at hok
  cases hpl : ring.getNodes h key cfg.replicationFactor with
  | error u => rw [hpl] at hok; cases hok
  | ok pref =>
      rw [hpl] at hok
      dsimp only at hok
      by_cases hlen :
        (collectResponses responses pref).length < getReadQuorum cfg consistency
      · rw [if_pos hlen] at hok; cases hok
      · rw [if_neg hlen] at hok
        cases hsort : sortByTsDesc (collectResponses responses pref) with
        | nil => rw [hsort] at hok; cases hok
        | cons latest rest =>
            rw [hsort] at hok
            have hpair := Except.ok.inj hok
            have hv : latest.value = v := congrArg Prod.fst hpair
            have hts : latest.timestamp = ts := congrArg Prod.snd hpair
            have hfm : firstMaxTs (collectResponses responses pref) = some latest := by
              rw [← head_sortByTsDesc_eq_firstMaxTs, hsort]
              rfl
            obtain ⟨hmem, hmax⟩ := firstMaxTs_spec _ _ hfm
            exact ⟨pref, latest, rfl, hfm, hv.symm, hts.symm, hmem, hmax⟩

set_option maxRecDepth 1000000 in
/-- C4 (counterexample): two replicas answer with the SAME maximum timestamp
but different values; swapping which node holds which value changes the
result — the coordinated read is not independent of response order and does
not break the tie by byte-lexicographic value order. -/
theorem C4_counterexample :
    coordinatorGet demoCfg demoHash demoRing
      (fun nid => if nid = "n1" then some ⟨"k", [98], 5, false⟩
        else if nid = "n2" then some ⟨"k", [97], 5, false⟩ else none)
      "k" "all" = .ok ([98], 5) ∧
    coordinatorGet demoCfg demoHash demoRing
      (fun nid => if nid = "n1" then some ⟨"k", [97], 5, false⟩
        else if nid = "n2" then some ⟨"k", [98], 5, false⟩ else none)
      "k" "all" = .ok ([97], 5) := by
  decide

set_option maxRecDepth 1000000 in
theorem C4_read_winner_witness :
    coordinatorGet demoCfg demoHash demoRing
      (fun nid => if nid = "n1" then some ⟨"k", [98], 5, false⟩
        else if nid = "n2" then some ⟨"k", [97], 5, false⟩ else none)
      "k" "all" = .ok ([98], 5) ∧
    (∃ pref m, demoRing.getNodes demoHash "k" demoCfg.replicationFactor = .ok pref ∧
      firstMaxTs (collectResponses
        (fun nid => if nid = "n1" then some ⟨"k", [98], 5, false⟩
          else if nid = "n2" then some ⟨"k", [97], 5, false⟩ else none) pref) = some m ∧
      ([98] : List Nat) = m.value ∧ (5 : Int) = m.timestamp ∧
      m ∈ collectResponses
        (fun nid => if nid = "n1" then some ⟨"k", [98], 5, false⟩
          else if nid = "n2" then some ⟨"k", [97], 5, false⟩ else none) pref ∧
      ∀ e ∈ collectResponses
        (fun nid => if nid = "n1" then some ⟨"k", [98], 5, false⟩
          else if nid = "n2" then some ⟨"k", [97], 5, false⟩ else none) pref,
        e.timestamp ≤ m.timestamp) :=
  ⟨by decide,
    C4_read_winner demoCfg demoHash demoRing
      (fun nid => if nid = "n1" then some ⟨"k", [98], 5, false⟩
        else if nid = "n2" then some ⟨"k", [97], 5, false⟩ else none)
      "k" "all" [98] 5 (by decide)⟩

/-! ### C5 — read repair targets -/

theorem readRepair_fold (cfg : Config) (latest : KVEntry) :
    ∀ (nodes : List String) (acc : RepairOutcome), nodes.Nodup →
      ((nodes.foldl
        (fun acc nodeID =>
          if nodeID = cfg.nodeID then
            match acc.storage.get latest.key with
            | .error _ =>
                { acc with storage :=
                    acc.storage.put latest.key latest.value latest.timestamp }
            | .ok (v, ts) =>
                if ts < latest.timestamp then
                  { acc with storage :=
                      acc.storage.put latest.key latest.value latest.timestamp }
                else if ts = latest.timestamp ∧ v ≠ latest.value then
                  { acc with storage :=
                      acc.storage.put latest.key latest.value latest.timestamp }
                else acc
          else { acc with sentTo := acc.sentTo ++ [nodeID] }) acc).sentTo =
        acc.sentTo ++ nodes.filter (fun nid => nid ≠ cfg.nodeID)) ∧
      ((nodes.foldl
        (fun acc nodeID =>
          if nodeID = cfg.nodeID then
            match acc.storage.get latest.key with
            | .error _ =>
                { acc with storage :=
                    acc.storage.put latest.key latest.value latest.timestamp }
            | .ok (v, ts) =>
                if ts < latest.timestamp then
                  { acc with storage :=
                      acc.storage.put latest.key latest.value latest.timestamp }
                else if ts = latest.timestamp ∧ v ≠ latest.value then
                  { acc with storage :=
                      acc.storage.put latest.key latest.value latest.timestamp }
                else acc
          else { acc with sentTo := acc.sentTo ++ [nodeID] }) acc).storage =
        if cfg.nodeID ∈ nodes ∧ needsLocalRepair acc.storage latest = true then
          acc.storage.put latest.key latest.value latest.timestamp
        else acc.storage) := by
  intro nodes
  induction nodes with
  | nil =>
      intro acc _
      constructor
      · simp
      · simp
  | cons nid rest ih =>
      intro acc hnd
      rw [List.nodup_cons] at hnd
      by_cases hself : nid = cfg.nodeID
      · subst hself
        have hstep : (if cfg.nodeID = cfg.nodeID then
            match acc.storage.get latest.key with
            | .error _ =>
                ({ acc with storage :=
                    acc.storage.put latest.key latest.value latest.timestamp } : RepairOutcome)
            | .ok (v, ts) =>
                if ts < latest.timestamp then
                  { acc with storage :=
                      acc.storage.put latest.key latest.value latest.timestamp }
                else if ts = latest.timestamp ∧ v ≠ latest.value then
                  { acc with storage :=
                      acc.storage.put latest.key latest.value latest.timestamp }
                else acc
          else { acc with sentTo := acc.sentTo ++ [cfg.nodeID] }) =
            ⟨if needsLocalRepair acc.storage latest then
                acc.storage.put latest.key latest.value latest.timestamp
              else acc.storage, acc.sentTo⟩ := by
          rw [if_pos rfl]
          unfold needsLocalRepair
          cases hget : acc.storage.get latest.key with
          | error err => simp
          | ok pr =>
              obtain ⟨v, ts⟩ := pr
              by_cases h1 : ts < latest.timestamp
              · simp [h1]
              · by_cases h2 : ts = latest.timestamp
                · by_cases h3 : v = latest.value
                  · simp [h1, h2, h3]
                  · simp [h1, h2, h3]
                · simp [h1, h2]
        rw [List.foldl_cons, hstep]
        obtain ⟨ih1, ih2⟩ := ih
          ⟨if needsLocalRepair acc.storage latest then
              acc.storage.put latest.key latest.value latest.timestamp
            else acc.storage, acc.sentTo⟩ hnd.2
        constructor
        · rw [ih1]
          simp
        · rw [ih2]
          have hnin : cfg.nodeID ∉ rest := hnd.1
          rw [if_neg (by
            rintro ⟨hmem, -⟩
            exact hnin hmem)]
          show (if needsLocalRepair acc.storage latest then
              acc.storage.put latest.key latest.value latest.timestamp
            else acc.storage) = _
          by_cases hn : needsLocalRepair acc.storage latest
          · rw [if_pos hn, if_pos ⟨List.mem_cons_self _ _, hn⟩]
          · rw [if_neg hn, if_neg (by
              rintro ⟨-, hcon⟩
              exact hn hcon)]
      · have hstep : (if nid = cfg.nodeID then
            match acc.storage.get latest.key with
            | .error _ =>
                ({ acc with storage :=
                    acc.storage.put latest.key latest.value latest.timestamp } : RepairOutcome)
            | .ok (v, ts) =>
                if ts < latest.timestamp then
                  { acc with storage :=
                      acc.storage.put latest.key latest.value latest.timestamp }
                else if ts = latest.timestamp ∧ v ≠ latest.value then
                  { acc with storage :=
                      acc.storage.put latest.key latest.value latest.timestamp }
                else acc
          else { acc with sentTo := acc.sentTo ++ [nid] }) =
            ⟨acc.storage, acc.sentTo ++ [nid]⟩ := by
          rw [if_neg hself]
        rw [List.foldl_cons, hstep]
        obtain ⟨ih1, ih2⟩ := ih ⟨acc.storage, acc.sentTo ++ [nid]⟩ hnd.2
        constructor
        · rw [ih1]
          have hdec : decide (nid ≠ cfg.nodeID) = true := by simp [hself]
          simp [List.filter_cons, hdec, List.append_assoc]
          rw [if_neg hself]
        · rw [ih2]
          by_cases hmem : cfg.nodeID ∈ rest
          · by_cases hn : needsLocalRepair acc.storage latest
            · rw [if_pos ⟨hmem, hn⟩, if_pos ⟨List.mem_cons_of_mem _ hmem, hn⟩]
            · rw [if_neg (by rintro ⟨-, hcon⟩; simp [hn] at hcon),
                if_neg (by rintro ⟨-, hcon⟩; simp [hn] at hcon)]
          · rw [if_neg (by rintro ⟨hcon, -⟩; exact hmem hcon),
              if_neg (by
                rintro ⟨hcon, -⟩
                rcases List.mem_cons.mp hcon with h' | h'
                · exact hself h'.symm
                · exact hmem h')]

/-- C5 (amended): after a successful coordinated read, the asynchronous
repair pass sends the winning record to EVERY remote peer of the preference
list — including peers that already returned the winning timestamp and value
— while the coordinator's own store is re-written only when its local copy is
missing, older than the winner, or value-different at the winning timestamp. -/
theorem C5_repair_targets (cfg : Config) (storage : Bitcask) (nodes : List String)
    (latest : KVEntry) (hnd : nodes.Nodup) :
    (readRepair cfg storage nodes latest).sentTo =
      nodes.filter (fun nid => nid ≠ cfg.nodeID) ∧
    (readRepair cfg storage nodes latest).storage =
      (if cfg.nodeID ∈ nodes ∧ needsLocalRepair storage latest = true then
        storage.put latest.key latest.value latest.timestamp
      else storage) := by
  obtain ⟨h1, h2⟩ := readRepair_fold cfg latest nodes ⟨storage, []⟩ hnd
  constructor
  · rw [show (readRepair cfg storage nodes latest).sentTo =
      (⟨storage, []⟩ : RepairOutcome).sentTo ++
        nodes.filter (fun nid => nid ≠ cfg.nodeID) from h1]
    rfl
  · exact h2

set_option maxRecDepth 1000000 in
/-- C5 (counterexample): both replicas of the two-node preference list return
exactly the winning record, yet the repair pass still sends a repair write to
the remote peer `n2` — contradicting the claim that a peer that already
returned the winning timestamp and value is not sent a repair write. -/
theorem C5_counterexample :
    demoRing.getNodes demoHash "k" 2 = .ok ["n1", "n2"] ∧
    coordinatorGet demoCfg demoHash demoRing
      (fun nid => if nid = "n1" then some ⟨"k", [97], 5, false⟩
        else if nid = "n2" then some ⟨"k", [97], 5, false⟩ else none)
      "k" "all" = .ok ([97], 5) ∧
    (readRepair demoCfg (Bitcask.new.put "k" [97] 5) ["n1", "n2"]
      ⟨"k", [97], 5, false⟩).sentTo = ["n2"] := by
  decide

set_option maxRecDepth 1000000 in
theorem C5_repair_targets_witness :
    (["n1", "n2"] : List String).Nodup ∧
    (readRepair demoCfg (Bitcask.new.put "k" [97] 5) ["n1", "n2"]
        ⟨"k", [97], 5, false⟩).sentTo =
      (["n1", "n2"] : List String).filter (fun nid => nid ≠ demoCfg.nodeID) ∧
    (readRepair demoCfg (Bitcask.new.put "k" [97] 5) ["n1", "n2"]
        ⟨"k", [97], 5, false⟩).storage =
      (if demoCfg.nodeID ∈ (["n1", "n2"] : List String) ∧
          needsLocalRepair (Bitcask.new.put "k" [97] 5) ⟨"k", [97], 5, false⟩ = true then
        (Bitcask.new.put "k" [97] 5).put "k" [97] 5
      else Bitcask.new.put "k" [97] 5) :=
  ⟨by decide,
    C5_repair_targets demoCfg (Bitcask.new.put "k" [97] 5) ["n1", "n2"]
      ⟨"k", [97], 5, false⟩ (by decide)⟩

/-! ### C1 — the client-facing delete -/

theorem lookupStore_cons (id : String) (st : Bitcask) (l : List (String × Bitcask))
    (nid : String) :
    lookupStore ((id, st) :: l) nid = if id = nid then some st else lookupStore l nid := rfl

theorem lookupStore_map_del_ne (l : List (String × Bitcask))
    (coordID key nid : String) (ts : Int) (hne : nid ≠ coordID) :
    lookupStore (l.map (fun p => if p.1 = coordID then (p.1, p.2.del key ts) else p)) nid =
      lookupStore l nid := by
  induction l with
  | nil => rfl
  | cons p rest ih =>
      obtain ⟨id, st⟩ := p
      rw [List.map_cons]
      by_cases hc : id = coordID
      · have hmap : (if (id, st).1 = coordID then ((id, st).1, (id, st).2.del key ts)
            else (id, st)) = (id, st.del key ts) := by simp [hc]
        rw [hmap, lookupStore_cons, lookupStore_cons]
        have hne' : ¬ id = nid := fun hh => hne (hh.symm.trans hc)
        rw [if_neg hne', if_neg hne']
        exact ih
      · have hmap : (if (id, st).1 = coordID then ((id, st).1, (id, st).2.del key ts)
            else (id, st)) = (id, st) := by simp [hc]
        rw [hmap, lookupStore_cons, lookupStore_cons]
        by_cases hn : id = nid
        · rw [if_pos hn, if_pos hn]
        · rw [if_neg hn, if_neg hn]
          exact ih

theorem lookupStore_map_del_self (l : List (String × Bitcask))
    (coordID key : String) (ts : Int) :
    lookupStore (l.map (fun p => if p.1 = coordID then (p.1, p.2.del key ts) else p)) coordID =
      (lookupStore l coordID).map (fun st => st.del key ts) := by
  induction l with
  | nil => rfl
  | cons p rest ih =>
      obtain ⟨id, st⟩ := p
      rw [List.map_cons]
      by_cases hc : id = coordID
      · have hmap : (if (id, st).1 = coordID then ((id, st).1, (id, st).2.del key ts)
            else (id, st)) = (id, st.del key ts) := by simp [hc]
        rw [hmap, lookupStore_cons, lookupStore_cons, if_pos hc, if_pos hc]
        rfl
      · have hmap : (if (id, st).1 = coordID then ((id, st).1, (id, st).2.del key ts)
            else (id, st)) = (id, st) := by simp [hc]
        rw [hmap, lookupStore_cons, lookupStore_cons, if_neg hc, if_neg hc]
        exact ih

/-- C1 (amended): the client-facing delete is NOT coordinated: the DELETE
handler applies a tombstone with a locally chosen timestamp to the serving
node's own storage only; the consistency level is ignored (any two levels
produce identical cluster states), every other node's storage is untouched,
and the serving node's storage is exactly its old storage with the local
tombstone appended. -/
theorem C1_delete_local_only (cl : Cluster) (coordID key c c' : String) (ts : Int) :
    clientDelete cl coordID key c ts = clientDelete cl coordID key c' ts ∧
    (∀ nid, nid ≠ coordID →
      lookupStore (clientDelete cl coordID key c ts).nodes nid = lookupStore cl.nodes nid) ∧
    lookupStore (clientDelete cl coordID key c ts).nodes coordID =
      (lookupStore cl.nodes coordID).map (fun st => st.del key ts) :=
  ⟨rfl, fun _nid hne => lookupStore_map_del_ne cl.nodes coordID key _nid ts hne,
    lookupStore_map_del_self cl.nodes coordID key ts⟩

/-- A two-node cluster in which both nodes hold the key `"k"` live. -/
def demoClusterK : Cluster :=
  ⟨[("n1", Bitcask.new.put "k" [118] 1), ("n2", Bitcask.new.put "k" [118] 1)]⟩

set_option maxRecDepth 1000000 in
/-- C1 (counterexample): with two nodes on the ring and N = 2, the remote
replica `n2` is on the key's 2-node preference list, yet the client-facing
delete at consistency `all` leaves `n2`'s storage unchanged — `"k"` is still
live there and no tombstone was dispatched — and the resulting cluster state
is identical for consistency `one`, refuting the coordinated-delete claim. -/
theorem C1_counterexample :
    demoRing.getNodes demoHash "k" 2 = .ok ["n1", "n2"] ∧
    lookupStore (clientDelete demoClusterK "n1" "k" "all" 50).nodes "n2" =
      some (Bitcask.new.put "k" [118] 1) ∧
    (Bitcask.new.put "k" [118] 1).get "k" = .ok ([118], 1) ∧
    clientDelete demoClusterK "n1" "k" "all" 50 =
      clientDelete demoClusterK "n1" "k" "one" 50 := by
  decide

theorem C1_delete_local_only_witness :
    ("n2" : String) ≠ "n1" ∧
    lookupStore (clientDelete demoClusterK "n1" "k" "all" 50).nodes "n2" =
      lookupStore demoClusterK.nodes "n2" :=
  ⟨by decide,
    (C1_delete_local_only demoClusterK "n1" "k" "all" "one" 50).2.1 "n2" (by decide)⟩

end KVStore
